import Mathlib

/-!
Verification of `scripts/pretty_diff.py` (segmentio/kubeapply).

Python strings are modelled as lists of characters (`Line`); the parts of
Python's `difflib` library that the script calls (`SequenceMatcher`,
`unified_diff`) are embedded from the CPython sources, restricted to the
configuration the script uses (`isjunk = None`, hence the junk set is empty).
-/

/-- A Python string (a sequence of code points). -/
abbrev Line := List Char

/-- The slice `l[i:j]` of a Python list/string. -/
def sliceL {α : Type} (l : List α) (i j : Nat) : List α :=
  (l.drop i).take (j - i)

/-- Python `str.isspace` on the ASCII whitespace characters relevant here
(space, tab, newline, carriage return, vertical tab, form feed). -/
def pyIsSpace (c : Char) : Bool :=
  c = ' ' || c = '\t' || c = '\n' || c = '\r' || c = '\x0b' || c = '\x0c'

/-- Python `str.rstrip()`: remove trailing whitespace. -/
def rstrip (l : Line) : Line :=
  (l.reverse.dropWhile pyIsSpace).reverse

/-- Two-argument `os.path.join` (posixpath semantics). -/
def pyJoin (a b : Line) : Line :=
  if b.headD ' ' = '/' then b
  else if a = [] || a.getLastD ' ' = '/' then a ++ b
  else a ++ ['/'] ++ b

/-- Decimal rendering of a natural number, as for Python `'%d' % n`. -/
def natLine (n : Nat) : Line := (toString n).toList

namespace Difflib

/-- `difflib.SequenceMatcher`'s `Match` triple `(a, b, size)`. -/
structure Match where
  a : Nat
  b : Nat
  size : Nat
deriving DecidableEq, Repr

variable {α : Type} [DecidableEq α]

/-- The list of indices `j` with `b[j] = x`, ascending: one entry of the
`b2j` mapping built by `SequenceMatcher.__chain_b`. -/
def b2jAll (b : List α) (x : α) : List Nat :=
  (List.range b.length).filter (fun j => b.get? j = some x)

/-- `b2j` lookup with the autojunk heuristic of `__chain_b`: when
`len(b) >= 200`, elements occurring more than `len(b) // 100 + 1` times are
deleted from `b2j` (treated as popular). `isjunk` is `None` here, so the
junk set is empty and no other entry is removed. -/
def pyB2j (b : List α) (x : α) : List Nat :=
  let idxs := b2jAll b x
  if 200 ≤ b.length ∧ b.length / 100 + 1 < idxs.length then [] else idxs

/-- Inner loop of `find_longest_match`: for one row `i`, walk the ascending
index list `b2j[a[i]]`, skipping `j < blo` (`continue`) and stopping at
`j >= bhi` (`break`); build `newj2len` and update the running best. -/
def innerLoop (blo bhi i : Nat) (j2len : Nat → Nat) :
    List Nat → (Nat → Nat) → Match → (Nat → Nat) × Match
  | [], newj2len, best => (newj2len, best)
  | j :: js, newj2len, best =>
    if j < blo then innerLoop blo bhi i j2len js newj2len best
    else if bhi ≤ j then (newj2len, best)
    else
      let k := (if j = 0 then 0 else j2len (j - 1)) + 1
      let newj2len' := fun j' => if j' = j then k else newj2len j'
      let best' := if best.size < k then ⟨i + 1 - k, j + 1 - k, k⟩ else best
      innerLoop blo bhi i j2len js newj2len' best'

/-- Outer loop of `find_longest_match` over `i in range(alo, ahi)`. -/
def outerLoop (a : List α) (b2jf : α → List Nat) (blo bhi : Nat) :
    List Nat → (Nat → Nat) → Match → Match
  | [], _, best => best
  | i :: is', j2len, best =>
    let js := match a.get? i with
      | none => []
      | some x => b2jf x
    let (newj2len, best') := innerLoop blo bhi i j2len js (fun _ => 0) best
    outerLoop a b2jf blo bhi is' newj2len best'

/-- First extension loop of `find_longest_match`: extend the best block
downwards while the neighbouring elements match (`isbjunk` is constantly
false since the junk set is empty).  The fuel starts at `m.a`, which bounds
the number of iterations. -/
def extendLower (a b : List α) (alo blo : Nat) : Nat → Match → Match
  | 0, m => m
  | fuel + 1, m =>
    if alo < m.a ∧ blo < m.b ∧ a.get? (m.a - 1) ≠ none ∧
        a.get? (m.a - 1) = b.get? (m.b - 1) then
      extendLower a b alo blo fuel ⟨m.a - 1, m.b - 1, m.size + 1⟩
    else m

/-- Second extension loop of `find_longest_match`: extend the best block
upwards while the neighbouring elements match.  The fuel starts at
`ahi - (m.a + m.size)`. -/
def extendUpper (a b : List α) (ahi bhi : Nat) : Nat → Match → Match
  | 0, m => m
  | fuel + 1, m =>
    if m.a + m.size < ahi ∧ m.b + m.size < bhi ∧ a.get? (m.a + m.size) ≠ none ∧
        a.get? (m.a + m.size) = b.get? (m.b + m.size) then
      extendUpper a b ahi bhi fuel ⟨m.a, m.b, m.size + 1⟩
    else m

/-- `SequenceMatcher.find_longest_match(alo, ahi, blo, bhi)`.  The final two
junk-extension loops of the CPython source require `b[bestj-1]`
(resp. `b[bestj+bestsize]`) to be junk and never fire with an empty junk
set, so they are omitted. -/
def find_longest_match (a b : List α) (b2jf : α → List Nat)
    (alo ahi blo bhi : Nat) : Match :=
  let best := outerLoop a b2jf blo bhi (List.range' alo (ahi - alo))
    (fun _ => 0) ⟨alo, blo, 0⟩
  let best := extendLower a b alo blo best.a best
  extendUpper a b ahi bhi (ahi - (best.a + best.size)) best

/-- The recursive block collection of `get_matching_blocks`.  CPython keeps
a work queue and sorts the collected blocks afterwards; collecting the left
window, the block, then the right window yields the same sorted list
directly.  The fuel decreases since each sub-window is strictly smaller. -/
def matchingBlocksAux (a b : List α) (b2jf : α → List Nat) :
    Nat → Nat → Nat → Nat → Nat → List Match
  | 0, _, _, _, _ => []
  | fuel + 1, alo, ahi, blo, bhi =>
    let m := find_longest_match a b b2jf alo ahi blo bhi
    if m.size = 0 then []
    else
      (if alo < m.a ∧ blo < m.b then
        matchingBlocksAux a b b2jf fuel alo m.a blo m.b
      else []) ++ [m] ++
      (if m.a + m.size < ahi ∧ m.b + m.size < bhi then
        matchingBlocksAux a b b2jf fuel (m.a + m.size) ahi (m.b + m.size) bhi
      else [])

/-- One step of the adjacent-block collapsing loop of
`get_matching_blocks`: state is the pending block `(i1, j1, k1)` plus the
emitted list. -/
def collapseStep (s : Match × List Match) (m : Match) : Match × List Match :=
  let (cur, acc) := s
  if cur.a + cur.size = m.a ∧ cur.b + cur.size = m.b then
    (⟨cur.a, cur.b, cur.size + m.size⟩, acc)
  else
    (m, if cur.size ≠ 0 then acc ++ [cur] else acc)

/-- The adjacent-block collapsing loop of `get_matching_blocks`, starting
from the pending block `(0, 0, 0)` and flushing the final pending block. -/
def collapseAdjacent (blocks : List Match) : List Match :=
  let (cur, acc) := blocks.foldl collapseStep (⟨0, 0, 0⟩, [])
  if cur.size ≠ 0 then acc ++ [cur] else acc

/-- `SequenceMatcher.get_matching_blocks()`: collect blocks over the full
windows, collapse adjacent blocks, and append the `(la, lb, 0)` sentinel. -/
def get_matching_blocks (a b : List α) : List Match :=
  let blocks := matchingBlocksAux a b (pyB2j b)
    (a.length + b.length + 1) 0 a.length 0 b.length
  collapseAdjacent blocks ++ [⟨a.length, b.length, 0⟩]

/-- The four opcode tags of `SequenceMatcher.get_opcodes()`. -/
inductive Tag where
  | replace
  | delete
  | insert
  | equal
deriving DecidableEq, Repr

/-- One opcode `(tag, i1, i2, j1, j2)`. -/
structure Opcode where
  tag : Tag
  i1 : Nat
  i2 : Nat
  j1 : Nat
  j2 : Nat
deriving DecidableEq, Repr

/-- One step of the `get_opcodes` loop: state is `(i, j)` plus the emitted
opcodes; emit the gap opcode before the block, then the `equal` opcode for
the block itself when its size is nonzero. -/
def opcodeStep (s : (Nat × Nat) × List Opcode) (m : Match) :
    (Nat × Nat) × List Opcode :=
  let ((i, j), acc) := s
  let gap :=
    if i < m.a ∧ j < m.b then [⟨Tag.replace, i, m.a, j, m.b⟩]
    else if i < m.a then [⟨Tag.delete, i, m.a, j, m.b⟩]
    else if j < m.b then [⟨Tag.insert, i, m.a, j, m.b⟩]
    else []
  let eq' :=
    if m.size ≠ 0 then
      [⟨Tag.equal, m.a, m.a + m.size, m.b, m.b + m.size⟩]
    else []
  ((m.a + m.size, m.b + m.size), acc ++ gap ++ eq')

/-- `SequenceMatcher.get_opcodes()`. -/
def get_opcodes (a b : List α) : List Opcode :=
  ((get_matching_blocks a b).foldl opcodeStep ((0, 0), [])).2

/-- Apply `f` to the last element of a list (`codes[-1] = ...`). -/
def mapLast {β : Type} (f : β → β) : List β → List β
  | [] => []
  | [x] => [f x]
  | x :: xs => x :: mapLast f xs

/-- The dummy opcode used as default for head/last lookups on group lists
(groups produced by `get_grouped_opcodes` are never empty). -/
def dummyOp : Opcode := ⟨Tag.equal, 0, 0, 0, 0⟩

/-- The group-splitting loop of `get_grouped_opcodes(n)`: a pure-`equal`
opcode spanning more than `2 n` lines ends the current group (keeping its
first `n` lines as trailing context) and starts a new one (keeping its last
`n` lines as leading context); the final group is emitted unless it is a
single `equal` opcode. -/
def groupSplit (n : Nat) : List Opcode → List Opcode → List (List Opcode)
  | group, [] =>
    if group ≠ [] ∧ ¬(group.length = 1 ∧ (group.headD dummyOp).tag = Tag.equal)
    then [group] else []
  | group, c :: rest =>
    if c.tag = Tag.equal ∧ n + n < c.i2 - c.i1 then
      (group ++ [⟨c.tag, c.i1, min c.i2 (c.i1 + n), c.j1,
        min c.j2 (c.j1 + n)⟩]) ::
      groupSplit n [⟨c.tag, max c.i1 (c.i2 - n), c.i2,
        max c.j1 (c.j2 - n), c.j2⟩] rest
    else groupSplit n (group ++ [c]) rest

/-- The `codes[0]` fixup of `get_grouped_opcodes`: a leading `equal`
opcode is cut down to its last `n` lines. -/
def trimLeading (n : Nat) : List Opcode → List Opcode
  | [] => []
  | c :: rest =>
    (if c.tag = Tag.equal then
      ⟨c.tag, max c.i1 (c.i2 - n), c.i2, max c.j1 (c.j2 - n), c.j2⟩
    else c) :: rest

/-- The `codes[-1]` fixup of `get_grouped_opcodes`: a trailing `equal`
opcode is cut down to its first `n` lines. -/
def trimTrailingOp (n : Nat) (c : Opcode) : Opcode :=
  if c.tag = Tag.equal then
    ⟨c.tag, c.i1, min c.i2 (c.i1 + n), c.j1, min c.j2 (c.j1 + n)⟩
  else c

/-- `SequenceMatcher.get_grouped_opcodes(n)`: fix up a leading/trailing
`equal` opcode to at most `n` context lines, then split into groups. -/
def get_grouped_opcodes (a b : List α) (n : Nat) : List (List Opcode) :=
  let codes := get_opcodes a b
  let codes := if codes = [] then [⟨Tag.equal, 0, 1, 0, 1⟩] else codes
  groupSplit n [] (mapLast (trimTrailingOp n) (trimLeading n codes))

/-- `difflib._format_range_unified(start, stop)`. -/
def formatRangeUnified (start stop : Nat) : Line :=
  let beginning := start + 1
  let length := stop - start
  if length = 1 then natLine beginning
  else natLine (if length = 0 then beginning - 1 else beginning) ++
    [','] ++ natLine length

/-- The lines emitted by `difflib.unified_diff` for a single opcode. -/
def opLines (a b : List Line) (c : Opcode) : List Line :=
  if c.tag = Tag.equal then (sliceL a c.i1 c.i2).map (fun l => ' ' :: l)
  else
    (if c.tag = Tag.replace ∨ c.tag = Tag.delete then
      (sliceL a c.i1 c.i2).map (fun l => '-' :: l)
    else []) ++
    (if c.tag = Tag.replace ∨ c.tag = Tag.insert then
      (sliceL b c.j1 c.j2).map (fun l => '+' :: l)
    else [])

/-- The lines emitted by `difflib.unified_diff` for one group: the
`@@ -... +... @@` hunk header followed by the tagged lines. -/
def groupLines (a b : List Line) (g : List Opcode) : List Line :=
  let first := g.headD dummyOp
  let last := g.getLastD dummyOp
  ("@@ -".toList ++ formatRangeUnified first.i1 last.i2 ++
    " +".toList ++ formatRangeUnified first.j1 last.j2 ++
    " @@\n".toList) :: g.foldr (fun c acc => opLines a b c ++ acc) []

/-- `difflib.unified_diff(a, b, fromfile, tofile)` with the default
`n = 3`, `lineterm = '\n'` and empty file dates: the `---`/`+++` header
lines are emitted before the first group only. -/
def unified_diff (a b : List Line) (fromfile tofile : Line) : List Line :=
  match get_grouped_opcodes a b 3 with
  | [] => []
  | g :: gs =>
    ("--- ".toList ++ fromfile ++ ['\n']) ::
    ("+++ ".toList ++ tofile ++ ['\n']) ::
    (groupLines a b g ++ gs.foldr (fun g' acc => groupLines a b g' ++ acc) [])

end Difflib

namespace PrettyDiff

/-- `MAX_LINE_LEN` from `pretty_diff.py`. -/
def MAX_LINE_LEN : Nat := 256

/-- `bcolors.OKBLUE`. -/
def OKBLUE : Line := "\x1b[94m".toList

/-- `bcolors.OKGREEN`. -/
def OKGREEN : Line := "\x1b[92m".toList

/-- `bcolors.FAIL`. -/
def FAIL : Line := "\x1b[91m".toList

/-- `bcolors.ENDC`. -/
def ENDC : Line := "\x1b[0m".toList

/-- The line-length truncation in the `keep` branch of `get_lines`: a line
longer than `MAX_LINE_LEN` is cut to its first `MAX_LINE_LEN` characters
followed by `'... (%d chars omitted)'`. -/
def truncateLine (l : Line) : Line :=
  if MAX_LINE_LEN < l.length then
    l.take MAX_LINE_LEN ++ "... (".toList ++
      natLine (l.length - MAX_LINE_LEN) ++ " chars omitted)".toList
  else l

/-- The loop of `get_lines`, carrying the `inside_managed_fields` flag. -/
def getLinesAux (strip_managed_fields : Bool) :
    Bool → List Line → List Line
  | _, [] => []
  | inside, l :: rest =>
    let (keep, inside') :=
      if strip_managed_fields then
        if "  managedFields:".toList.isPrefixOf l then (false, true)
        else if inside then
          if ¬("  -".toList.isPrefixOf l ∨ "   ".toList.isPrefixOf l) then
            (true, false)
          else (false, true)
        else (true, inside)
      else (true, inside)
    (if keep then [truncateLine l] else []) ++
      getLinesAux strip_managed_fields inside' rest

/-- `get_lines(path, strip_managed_fields)`, with the file's raw lines
(each including its terminator, as Python's file iteration yields them)
passed in place of the path. -/
def get_lines (lines : List Line) (strip_managed_fields : Bool) : List Line :=
  getLinesAux strip_managed_fields false lines

/-- The body of the printing loop of `diff_files`: the emitted line for one
line of the unified diff (`none` when nothing is printed).  The line is
first `rstrip`ped; `+`/`-`/`^` prefixes select green/red/blue wrapping when
colors are on, and any other line is printed only when nonempty. -/
def colorizeLine (use_colors : Bool) (l0 : Line) : Option Line :=
  let l := rstrip l0
  if l.head? = some '+' then some (if use_colors then OKGREEN ++ l ++ ENDC else l)
  else if l.head? = some '-' then some (if use_colors then FAIL ++ l ++ ENDC else l)
  else if l.head? = some '^' then some (if use_colors then OKBLUE ++ l ++ ENDC else l)
  else if 0 < l.length then some l else none

/-- `diff_files`: the lines printed for one comparison pair, given the
filtered line sequences of the two files (the empty list when the
corresponding path is `None`). -/
def diff_files (name : Line) (old_lines new_lines : List Line)
    (use_colors : Bool) : List Line :=
  (Difflib.unified_diff old_lines new_lines
    (pyJoin "api-server".toList name)
    (pyJoin "local-configs".toList name)).filterMap (colorizeLine use_colors)

/-- The exception raised by `walk_path`:
`Exception('Path %s does not exist', root_path)` carries the format string
and the offending path as its two arguments. -/
structure PyException where
  msg : Line
  arg : Line
deriving DecidableEq

/-- The file-system facts `walk_path` and `main` consult: `os.path.exists`,
`os.path.isfile`, the joined file paths produced by the `os.walk` loop of
`walk_path`, and the lines of a file as read by `get_lines`. -/
structure FileSystem where
  pathExists : Line → Bool
  isfile : Line → Bool
  walkFiles : Line → List Line
  readLines : Line → List Line

/-- `walk_path(root_path)`. -/
def walk_path (fs : FileSystem) (root_path : Line) :
    Except PyException (List Line) :=
  if ¬ fs.pathExists root_path then
    Except.error ⟨"Path %s does not exist".toList, root_path⟩
  else if fs.isfile root_path then Except.ok [root_path]
  else Except.ok (fs.walkFiles root_path)

/-- Split a path on `/` and drop empty components. -/
def splitComps (p : Line) : List Line :=
  (p.splitOn '/').filter (fun c => c ≠ [])

/-- The components of `os.path.abspath(p)` given the (already normalized,
absolute) components of the working directory: `normpath(join(cwd, p))`,
resolving `.` and `..` lexically. -/
def absComps (cwd : List Line) (p : Line) : List Line :=
  let comps := if p.head? = some '/' then splitComps p else cwd ++ splitComps p
  comps.foldl (fun acc c =>
    if c = ".".toList then acc
    else if c = "..".toList then acc.dropLast
    else acc ++ [c]) []

/-- The length of the common prefix of two component lists
(`os.path.commonprefix`). -/
def commonPrefixLen : List Line → List Line → Nat
  | x :: xs, y :: ys => if x = y then commonPrefixLen xs ys + 1 else 0
  | _, _ => 0

/-- `os.path.relpath(path, start)` (posixpath): both arguments are made
absolute, the common prefix of their component lists is removed, `..`
entries lead back to the common ancestor, and an empty relative component
list yields `'.'`. -/
def relpath (cwd : List Line) (path start : Line) : Line :=
  let pl := absComps cwd path
  let sl := absComps cwd start
  let i := commonPrefixLen sl pl
  let rel := List.replicate (sl.length - i) "..".toList ++ pl.drop i
  match rel with
  | [] => ".".toList
  | r :: rs => rs.foldl (fun acc c => acc ++ ['/'] ++ c) r

/-- `os.path.basename(p)` (posixpath): everything after the last slash. -/
def pyBasename (p : Line) : Line :=
  (p.splitOn '/').getLastD []

/-- The relative-name set of one root in `main`: walk the root and make
each file path relative to it.  Python collects the names into a `set`;
the model deduplicates keeping first occurrences. -/
def rootNames (fs : FileSystem) (cwd : List Line) (root : Line) :
    Except PyException (List Line) :=
  (walk_path fs root).map
    (fun files => (files.map (fun f => relpath cwd f root)).dedup)

/-- One element of `diff_pairs` in `main`. -/
structure DiffPair where
  name : Line
  old_path : Option Line
  new_path : Option Line
deriving DecidableEq

/-- The classification of one union name in `main`'s `for name in
old_names | new_names` loop. -/
def classifyName (old_root new_root : Line) (old_names new_names : List Line)
    (name : Line) : DiffPair :=
  let old_path := pyJoin old_root name
  let new_path := pyJoin new_root name
  if name ∈ new_names ∧ name ∈ old_names then ⟨name, some old_path, some new_path⟩
  else if name ∈ new_names then ⟨name, none, some new_path⟩
  else ⟨name, some old_path, none⟩

/-- The sort key order of `diff_pairs.sort(key=lambda r: r[0])`: Python
compares the name strings, i.e. code-point-lexicographically. -/
def pairLe (p q : DiffPair) : Prop := String.mk p.name ≤ String.mk q.name

instance : DecidableRel pairLe := fun p q =>
  inferInstanceAs (Decidable (String.mk p.name ≤ String.mk q.name))

instance : IsTotal DiffPair pairLe :=
  ⟨fun p q => le_total (String.mk p.name) (String.mk q.name)⟩

instance : IsTrans DiffPair pairLe :=
  ⟨fun _ _ _ h h' => le_trans h h'⟩

/-- `diff_pairs.sort(key=lambda r: r[0])`: a comparison sort by the name
key.  Python's sort is stable, but the names fed to it are pairwise
distinct (they come from a set union), so any sort by the same total key
order produces the same list. -/
def sortPairs (l : List DiffPair) : List DiffPair :=
  List.insertionSort pairLe l

/-- The pair-building phase of `main`: classify every union name and sort
by name.  The union list stands for Python's iteration over the set
`old_names | new_names`, whose order is arbitrary. -/
def build_diff_pairs (old_root new_root : Line)
    (old_names new_names union : List Line) : List DiffPair :=
  sortPairs (union.map (classifyName old_root new_root old_names new_names))

/-- The path of a comparison pair's side, `None` replaced by no lines. -/
def sideLines (fs : FileSystem) (strip : Bool) : Option Line → List Line
  | none => []
  | some p => get_lines (fs.readLines p) strip

/-- `main(old_root, new_root)`: walk both roots, build and sort the pairs,
and emit the concatenated `diff_files` output; a failed walk aborts with
the exception before any output. -/
def mainRun (fs : FileSystem) (cwd : List Line) (old_root new_root : Line)
    (use_colors strip : Bool) : Except PyException (List Line) := do
  let old_names ← rootNames fs cwd old_root
  let new_names ← rootNames fs cwd new_root
  let union := (old_names ++ new_names).dedup
  let pairs := build_diff_pairs old_root new_root old_names new_names union
  Except.ok (pairs.foldr (fun p acc =>
    diff_files p.name (sideLines fs strip p.old_path)
      (sideLines fs strip p.new_path) use_colors ++ acc) [])

end PrettyDiff

namespace Spec

/-- Modelled from the spec: the length of a longest common subsequence of
two token sequences, the yardstick of the spec's minimal-edit-script
requirement (a minimal script inserts and deletes
`|old| + |new| - 2 * lcsLen old new` lines). -/
def lcsLen {α : Type} [DecidableEq α] : List α → List α → Nat
  | [], _ => 0
  | _ :: _, [] => 0
  | x :: xs, y :: ys =>
    if x = y then lcsLen xs ys + 1
    else max (lcsLen xs (y :: ys)) (lcsLen (x :: xs) ys)

/-- Whether one opcode is internally consistent for sequences `a`, `b`:
ranges are ordered, an `equal` opcode relates equal slices of equal
length, and pure insertions/deletions span nothing on the other side. -/
def opOkB {α : Type} [DecidableEq α] (a b : List α) (c : Difflib.Opcode) :
    Bool :=
  decide (c.i1 ≤ c.i2) && decide (c.j1 ≤ c.j2) &&
  (match c.tag with
   | Difflib.Tag.equal =>
     decide (sliceL a c.i1 c.i2 = sliceL b c.j1 c.j2) &&
     decide (c.i2 - c.i1 = c.j2 - c.j1)
   | Difflib.Tag.insert => decide (c.i1 = c.i2)
   | Difflib.Tag.delete => decide (c.j1 = c.j2)
   | Difflib.Tag.replace => true)

/-- Whether an opcode list is a contiguous chain from `(i, j)` to the ends
of `a` and `b`, each opcode consistent. -/
def opsChainB {α : Type} [DecidableEq α] (a b : List α) :
    Nat → Nat → List Difflib.Opcode → Bool
  | i, j, [] => decide (i = a.length) && decide (j = b.length)
  | i, j, c :: cs =>
    decide (c.i1 = i) && decide (c.j1 = j) && opOkB a b c &&
      opsChainB a b c.i2 c.j2 cs

/-- Modelled from the spec: an edit script between `a` and `b` is a
contiguous, consistent opcode chain covering both sequences in full. -/
def isEditScript {α : Type} [DecidableEq α] (a b : List α)
    (ops : List Difflib.Opcode) : Bool :=
  opsChainB a b 0 0 ops

/-- The number of inserted plus deleted lines of one opcode. -/
def opCost (c : Difflib.Opcode) : Nat :=
  match c.tag with
  | Difflib.Tag.replace => (c.i2 - c.i1) + (c.j2 - c.j1)
  | Difflib.Tag.delete => c.i2 - c.i1
  | Difflib.Tag.insert => c.j2 - c.j1
  | Difflib.Tag.equal => 0

/-- The number of inserted plus deleted lines of an edit script. -/
def opsCost (ops : List Difflib.Opcode) : Nat :=
  ops.foldr (fun c n => opCost c + n) 0

/-- The insert-plus-delete line count of the edit script the Diff Engine
produces for `a`, `b`. -/
def editCost {α : Type} [DecidableEq α] (a b : List α) : Nat :=
  opsCost (Difflib.get_opcodes a b)

end Spec

section SliceLemmas

variable {α : Type}

lemma sliceL_self (l : List α) (i : Nat) : sliceL l i i = [] := by
  simp [sliceL]

lemma sliceL_append_mid (l : List α) {i j k : Nat} (h1 : i ≤ j) (h2 : j ≤ k) :
    sliceL l i k = sliceL l i j ++ sliceL l j k := by
  unfold sliceL
  have e1 : k - i = (j - i) + (k - j) := by omega
  rw [e1, List.take_add]
  congr 2
  rw [List.drop_drop]
  congr 1
  omega

lemma sliceL_snoc (l : List α) {i j : Nat} {x : α} (h : l.get? j = some x)
    (hij : i ≤ j) : sliceL l i (j + 1) = sliceL l i j ++ [x] := by
  unfold sliceL
  have e1 : j + 1 - i = (j - i) + 1 := by omega
  rw [e1, List.take_succ]
  congr 1
  rw [List.getElem?_drop]
  have e2 : i + (j - i) = j := by omega
  rw [e2, ← List.get?_eq_getElem?, h]
  rfl

lemma sliceL_cons (l : List α) {i j : Nat} {x : α} (h : l.get? i = some x)
    (hij : i < j) : sliceL l i j = x :: sliceL l (i + 1) j := by
  unfold sliceL
  have hlt : i < l.length := by
    rw [List.get?_eq_some] at h
    obtain ⟨w, _⟩ := h
    exact w
  have hx : l[i] = x := by
    rw [List.get?_eq_getElem?, List.getElem?_eq_getElem hlt] at h
    exact Option.some.inj h
  rw [List.drop_eq_getElem_cons hlt, hx]
  have e1 : j - i = (j - (i + 1)) + 1 := by omega
  rw [e1, List.take_succ_cons]

lemma sliceL_drop_left (l : List α) (i j s : Nat) :
    sliceL l (i + s) j = (sliceL l i j).drop s := by
  unfold sliceL
  rw [List.drop_take, List.drop_drop]
  congr 1
  omega

lemma sliceL_take_right (l : List α) {i t j : Nat} (h : i + t ≤ j) :
    sliceL l i (i + t) = (sliceL l i j).take t := by
  unfold sliceL
  rw [List.take_take]
  congr 1
  omega

end SliceLemmas

namespace Difflib

variable {α : Type} [DecidableEq α]

/-- Soundness of a candidate match for the window
`[alo, ahi) × [blo, bhi)`: it lies inside the window and the two slices it
relates are equal. -/
def MatchOk (a b : List α) (alo ahi blo bhi : Nat) (m : Match) : Prop :=
  alo ≤ m.a ∧ blo ≤ m.b ∧ m.a + m.size ≤ ahi ∧ m.b + m.size ≤ bhi ∧
  sliceL a m.a (m.a + m.size) = sliceL b m.b (m.b + m.size)

/-- Soundness of one `j2len` entry at row `i`: a matching run of length
`r` ending at `(i, j)` that starts no earlier than the window's lower
bounds. -/
def RunOk (a b : List α) (alo blo i j r : Nat) : Prop :=
  alo + r ≤ i + 1 ∧ blo + r ≤ j + 1 ∧
  sliceL a (i + 1 - r) (i + 1) = sliceL b (j + 1 - r) (j + 1)

lemma runOk_one {a b : List α} {alo blo i j : Nat} {x : α}
    (h1 : alo ≤ i) (h2 : blo ≤ j) (ha : a.get? i = some x)
    (hb : b.get? j = some x) : RunOk a b alo blo i j 1 := by
  refine ⟨by omega, by omega, ?_⟩
  have e1 : i + 1 - 1 = i := by omega
  have e2 : j + 1 - 1 = j := by omega
  rw [e1, e2, sliceL_snoc a ha le_rfl, sliceL_snoc b hb le_rfl,
    sliceL_self, sliceL_self]

lemma runOk_extend {a b : List α} {alo blo i j r : Nat} {x : α}
    (h : RunOk a b alo blo i j r) (ha : a.get? (i + 1) = some x)
    (hb : b.get? (j + 1) = some x) :
    RunOk a b alo blo (i + 1) (j + 1) (r + 1) := by
  obtain ⟨h1, h2, hs⟩ := h
  refine ⟨by omega, by omega, ?_⟩
  have e1 : i + 1 + 1 - (r + 1) = i + 1 - r := by omega
  have e2 : j + 1 + 1 - (r + 1) = j + 1 - r := by omega
  rw [e1, e2, sliceL_snoc a ha (by omega), sliceL_snoc b hb (by omega), hs]

lemma runOk_to_matchOk {a b : List α} {alo blo i j k ahi bhi : Nat}
    (h : RunOk a b alo blo i j k) (hi : i < ahi) (hj : j < bhi) :
    MatchOk a b alo ahi blo bhi ⟨i + 1 - k, j + 1 - k, k⟩ := by
  obtain ⟨h1, h2, hs⟩ := h
  have e1 : i + 1 - k + k = i + 1 := by omega
  have e2 : j + 1 - k + k = j + 1 := by omega
  refine ⟨?_, ?_, ?_, ?_, ?_⟩ <;> dsimp only [MatchOk]
  · omega
  · omega
  · omega
  · omega
  · rw [e1, e2]
    exact hs

lemma innerLoop_sound {a b : List α} {alo ahi blo bhi i : Nat} {x : α}
    {j2len : Nat → Nat}
    (hJ : ∀ j, j2len j ≠ 0 → i ≠ 0 ∧ RunOk a b alo blo (i - 1) j (j2len j))
    (hx : a.get? i = some x) (hi : alo ≤ i) (hiu : i < ahi) :
    ∀ (js : List Nat) (newj2len : Nat → Nat) (best : Match),
      (∀ j ∈ js, b.get? j = some x) →
      (∀ j, newj2len j ≠ 0 → RunOk a b alo blo i j (newj2len j)) →
      MatchOk a b alo ahi blo bhi best →
      (∀ j, (innerLoop blo bhi i j2len js newj2len best).1 j ≠ 0 →
        RunOk a b alo blo i j
          ((innerLoop blo bhi i j2len js newj2len best).1 j)) ∧
      MatchOk a b alo ahi blo bhi
        (innerLoop blo bhi i j2len js newj2len best).2 := by
  intro js
  induction js with
  | nil =>
    intro newj2len best _ hNew hBest
    exact ⟨hNew, hBest⟩
  | cons j js ih =>
    intro newj2len best hjs hNew hBest
    rw [innerLoop]
    by_cases hblo : j < blo
    · rw [if_pos hblo]
      exact ih _ _ (fun j' hj' => hjs j' (List.mem_cons_of_mem _ hj'))
        hNew hBest
    · rw [if_neg hblo]
      by_cases hbhi : bhi ≤ j
      · rw [if_pos hbhi]
        exact ⟨hNew, hBest⟩
      · rw [if_neg hbhi]
        have hbj : b.get? j = some x := hjs j (List.mem_cons_self j js)
        have hblo' : blo ≤ j := Nat.le_of_not_lt hblo
        have hk : RunOk a b alo blo i j
            ((if j = 0 then 0 else j2len (j - 1)) + 1) := by
          by_cases hj0 : j = 0
          · rw [if_pos hj0]
            subst hj0
            exact runOk_one hi hblo' hx hbj
          · rw [if_neg hj0]
            by_cases hr : j2len (j - 1) = 0
            · rw [hr]
              exact runOk_one hi hblo' hx hbj
            · obtain ⟨hi0, hrun⟩ := hJ (j - 1) hr
              have e1 : i - 1 + 1 = i := by omega
              have e2 : j - 1 + 1 = j := by omega
              have hext := runOk_extend hrun (by rw [e1]; exact hx)
                (by rw [e2]; exact hbj)
              rw [e1, e2] at hext
              exact hext
        set k := (if j = 0 then 0 else j2len (j - 1)) + 1 with hkdef
        refine ih _ _ (fun j' hj' => hjs j' (List.mem_cons_of_mem _ hj'))
          ?_ ?_
        · intro jq hq
          by_cases hqe : jq = j
          · subst hqe
            rw [if_pos rfl] at hq ⊢
            exact hk
          · rw [if_neg hqe] at hq ⊢
            exact hNew jq hq
        · split_ifs with hlt
          · exact runOk_to_matchOk hk hiu (Nat.lt_of_not_le hbhi)
          · exact hBest

lemma outerLoop_sound {a b : List α} {b2jf : α → List Nat}
    {alo ahi blo bhi : Nat}
    (hb2j : ∀ x j, j ∈ b2jf x → b.get? j = some x) :
    ∀ (cnt start : Nat) (j2len : Nat → Nat) (best : Match),
      alo ≤ start → start + cnt ≤ ahi →
      (∀ j, j2len j ≠ 0 →
        start ≠ 0 ∧ RunOk a b alo blo (start - 1) j (j2len j)) →
      MatchOk a b alo ahi blo bhi best →
      MatchOk a b alo ahi blo bhi
        (outerLoop a b2jf blo bhi (List.range' start cnt) j2len best) := by
  intro cnt
  induction cnt with
  | zero =>
    intro start j2len best _ _ _ hBest
    exact hBest
  | succ cnt ih =>
    intro start j2len best hs hsc hJ hBest
    have hr : List.range' start (cnt + 1) = start :: List.range' (start + 1) cnt :=
      rfl
    rw [hr, outerLoop]
    cases hx : a.get? start with
    | none =>
      exact ih (start + 1) _ best (by omega) (by omega)
        (fun j hj => absurd rfl hj) hBest
    | some x =>
      have hinner := innerLoop_sound hJ hx hs (by omega) (b2jf x)
        (fun _ => 0) best (fun j hj => hb2j x j hj)
        (fun j hj => absurd rfl hj) hBest
      exact ih (start + 1) _ _ (by omega) (by omega)
        (fun j hj => ⟨Nat.succ_ne_zero start, by
          have := hinner.1 j hj
          simpa using this⟩)
        hinner.2

lemma extendLower_sound {a b : List α} {alo blo ahi bhi : Nat} :
    ∀ (fuel : Nat) (m : Match), MatchOk a b alo ahi blo bhi m →
      MatchOk a b alo ahi blo bhi (extendLower a b alo blo fuel m) := by
  intro fuel
  induction fuel with
  | zero => intro m h; exact h
  | succ fuel ih =>
    intro m h
    rw [extendLower]
    split_ifs with hc
    · obtain ⟨h1, h2, h3, h4, hs⟩ := h
      obtain ⟨hma, hmb, hnn, heq⟩ := hc
      obtain ⟨x, hx⟩ := Option.ne_none_iff_exists'.1 hnn
      have hbx : b.get? (m.b - 1) = some x := by rw [← heq]; exact hx
      refine ih ⟨m.a - 1, m.b - 1, m.size + 1⟩ ?_
      refine ⟨?_, ?_, ?_, ?_, ?_⟩ <;> dsimp only
      · omega
      · omega
      · omega
      · omega
      · have e1 : m.a - 1 + (m.size + 1) = m.a + m.size := by omega
        have e2 : m.b - 1 + (m.size + 1) = m.b + m.size := by omega
        rw [e1, e2, sliceL_cons a hx (by omega), sliceL_cons b hbx (by omega)]
        have e3 : m.a - 1 + 1 = m.a := by omega
        have e4 : m.b - 1 + 1 = m.b := by omega
        rw [e3, e4, hs]
    · exact h

lemma extendUpper_sound {a b : List α} {alo blo ahi bhi : Nat} :
    ∀ (fuel : Nat) (m : Match), MatchOk a b alo ahi blo bhi m →
      MatchOk a b alo ahi blo bhi (extendUpper a b ahi bhi fuel m) := by
  intro fuel
  induction fuel with
  | zero => intro m h; exact h
  | succ fuel ih =>
    intro m h
    rw [extendUpper]
    split_ifs with hc
    · obtain ⟨h1, h2, h3, h4, hs⟩ := h
      obtain ⟨hma, hmb, hnn, heq⟩ := hc
      obtain ⟨x, hx⟩ := Option.ne_none_iff_exists'.1 hnn
      have hbx : b.get? (m.b + m.size) = some x := by rw [← heq]; exact hx
      refine ih ⟨m.a, m.b, m.size + 1⟩ ?_
      refine ⟨?_, ?_, ?_, ?_, ?_⟩ <;> dsimp only
      · omega
      · omega
      · omega
      · omega
      · have e1 : m.a + (m.size + 1) = (m.a + m.size) + 1 := by omega
        have e2 : m.b + (m.size + 1) = (m.b + m.size) + 1 := by omega
        rw [e1, e2, sliceL_snoc a hx (by omega), sliceL_snoc b hbx (by omega),
          hs]
    · exact h

lemma find_longest_match_sound {a b : List α} {b2jf : α → List Nat}
    {alo ahi blo bhi : Nat}
    (hb2j : ∀ x j, j ∈ b2jf x → b.get? j = some x)
    (h1 : alo ≤ ahi) (h2 : blo ≤ bhi) :
    MatchOk a b alo ahi blo bhi
      (find_longest_match a b b2jf alo ahi blo bhi) := by
  rw [find_longest_match]
  have hinit : MatchOk a b alo ahi blo bhi ⟨alo, blo, 0⟩ := by
    refine ⟨le_rfl, le_rfl, ?_, ?_, ?_⟩ <;> dsimp only
    · omega
    · omega
    · rw [Nat.add_zero, Nat.add_zero, sliceL_self, sliceL_self]
  have hout := outerLoop_sound hb2j (ahi - alo) alo (fun _ => 0)
    ⟨alo, blo, 0⟩ le_rfl (by omega) (fun j hj => absurd rfl hj) hinit
  exact extendUpper_sound _ _ (extendLower_sound _ _ hout)

/-- Chained soundness of a block list: blocks appear left to right, each
relating equal slices of `a` and `b`, starting no earlier than the running
lower bound and ending no later than `(ahi, bhi)`. -/
def BlocksOk (a b : List α) : Nat → Nat → List Match → Nat → Nat → Prop
  | alo, blo, [], ahi, bhi => alo ≤ ahi ∧ blo ≤ bhi
  | alo, blo, m :: rest, ahi, bhi =>
    alo ≤ m.a ∧ blo ≤ m.b ∧
    sliceL a m.a (m.a + m.size) = sliceL b m.b (m.b + m.size) ∧
    BlocksOk a b (m.a + m.size) (m.b + m.size) rest ahi bhi

lemma blocksOk_mono {a b : List α} {alo blo alo' blo' ahi bhi : Nat}
    {L : List Match} (h : BlocksOk a b alo blo L ahi bhi)
    (h1 : alo' ≤ alo) (h2 : blo' ≤ blo) :
    BlocksOk a b alo' blo' L ahi bhi := by
  cases L with
  | nil => exact ⟨le_trans h1 h.1, le_trans h2 h.2⟩
  | cons m rest => exact ⟨le_trans h1 h.1, le_trans h2 h.2.1, h.2.2.1, h.2.2.2⟩

lemma blocksOk_append {a b : List α} (mid midb : Nat)
    {alo blo ahi bhi : Nat} {L L' : List Match}
    (h1 : BlocksOk a b alo blo L mid midb)
    (h2 : BlocksOk a b mid midb L' ahi bhi) :
    BlocksOk a b alo blo (L ++ L') ahi bhi := by
  induction L generalizing alo blo with
  | nil => exact blocksOk_mono h2 h1.1 h1.2
  | cons m rest ih => exact ⟨h1.1, h1.2.1, h1.2.2.1, ih h1.2.2.2⟩

lemma blocksAux_ok {a b : List α} {b2jf : α → List Nat}
    (hb2j : ∀ x j, j ∈ b2jf x → b.get? j = some x) :
    ∀ (fuel alo ahi blo bhi : Nat), alo ≤ ahi → blo ≤ bhi →
      BlocksOk a b alo blo
        (matchingBlocksAux a b b2jf fuel alo ahi blo bhi) ahi bhi := by
  intro fuel
  induction fuel with
  | zero =>
    intro alo ahi blo bhi h1 h2
    exact ⟨h1, h2⟩
  | succ fuel ih =>
    intro alo ahi blo bhi h1 h2
    rw [matchingBlocksAux]
    have hm := @find_longest_match_sound α _ a b b2jf alo ahi blo bhi
      hb2j h1 h2
    set m := find_longest_match a b b2jf alo ahi blo bhi with hmdef
    obtain ⟨hm1, hm2, hm3, hm4, hm5⟩ := hm
    by_cases hz : m.size = 0
    · rw [if_pos hz]
      exact ⟨h1, h2⟩
    · rw [if_neg hz]
      refine blocksOk_append (m.a + m.size) (m.b + m.size) ?_ ?_
      · refine blocksOk_append m.a m.b ?_ ?_
        · by_cases hcl : alo < m.a ∧ blo < m.b
          · rw [if_pos hcl]
            exact ih alo m.a blo m.b (le_of_lt hcl.1) (le_of_lt hcl.2)
          · rw [if_neg hcl]
            exact ⟨hm1, hm2⟩
        · exact ⟨le_rfl, le_rfl, hm5, le_rfl, le_rfl⟩
      · by_cases hcr : m.a + m.size < ahi ∧ m.b + m.size < bhi
        · rw [if_pos hcr]
          exact ih _ ahi _ bhi (le_of_lt hcr.1) (le_of_lt hcr.2)
        · rw [if_neg hcr]
          exact ⟨hm3, hm4⟩

lemma blocksAux_pos {a b : List α} {b2jf : α → List Nat} :
    ∀ (fuel alo ahi blo bhi : Nat),
      ∀ m' ∈ matchingBlocksAux a b b2jf fuel alo ahi blo bhi,
        m'.size ≠ 0 := by
  intro fuel
  induction fuel with
  | zero =>
    intro alo ahi blo bhi m' hm'
    exact absurd hm' (List.not_mem_nil m')
  | succ fuel ih =>
    intro alo ahi blo bhi m' hm'
    rw [matchingBlocksAux] at hm'
    set m := find_longest_match a b b2jf alo ahi blo bhi with hmdef
    by_cases hz : m.size = 0
    · rw [if_pos hz] at hm'
      exact absurd hm' (List.not_mem_nil m')
    · rw [if_neg hz] at hm'
      rcases List.mem_append.1 hm' with hl | hr
      · rcases List.mem_append.1 hl with hll | hlm
        · by_cases hcl : alo < m.a ∧ blo < m.b
          · rw [if_pos hcl] at hll
            exact ih _ _ _ _ m' hll
          · rw [if_neg hcl] at hll
            exact absurd hll (List.not_mem_nil m')
        · rw [List.mem_singleton.1 hlm]
          exact hz
      · by_cases hcr : m.a + m.size < ahi ∧ m.b + m.size < bhi
        · rw [if_pos hcr] at hr
          exact ih _ _ _ _ m' hr
        · rw [if_neg hcr] at hr
          exact absurd hr (List.not_mem_nil m')

lemma collapse_fold_ok {a b : List α} {ahi bhi : Nat} :
    ∀ (blocks : List Match) (cur : Match) (acc : List Match),
      BlocksOk a b (cur.a + cur.size) (cur.b + cur.size) blocks ahi bhi →
      BlocksOk a b 0 0 acc cur.a cur.b →
      sliceL a cur.a (cur.a + cur.size) =
        sliceL b cur.b (cur.b + cur.size) →
      (cur.size = 0 → acc = [] ∧ cur = ⟨0, 0, 0⟩) →
      (∀ m ∈ blocks, m.size ≠ 0) →
      BlocksOk a b 0 0 (blocks.foldl collapseStep (cur, acc)).2
          (blocks.foldl collapseStep (cur, acc)).1.a
          (blocks.foldl collapseStep (cur, acc)).1.b ∧
        sliceL a (blocks.foldl collapseStep (cur, acc)).1.a
            ((blocks.foldl collapseStep (cur, acc)).1.a +
              (blocks.foldl collapseStep (cur, acc)).1.size) =
          sliceL b (blocks.foldl collapseStep (cur, acc)).1.b
            ((blocks.foldl collapseStep (cur, acc)).1.b +
              (blocks.foldl collapseStep (cur, acc)).1.size) ∧
        ((blocks.foldl collapseStep (cur, acc)).1.size = 0 →
          (blocks.foldl collapseStep (cur, acc)).2 = [] ∧
          (blocks.foldl collapseStep (cur, acc)).1 = ⟨0, 0, 0⟩) ∧
        (blocks.foldl collapseStep (cur, acc)).1.a +
            (blocks.foldl collapseStep (cur, acc)).1.size ≤ ahi ∧
        (blocks.foldl collapseStep (cur, acc)).1.b +
            (blocks.foldl collapseStep (cur, acc)).1.size ≤ bhi := by
  intro blocks
  induction blocks with
  | nil =>
    intro cur acc hb hacc hslice hzero _
    exact ⟨hacc, hslice, hzero, hb.1, hb.2⟩
  | cons m rest ih =>
    intro cur acc hb hacc hslice hzero hpos
    obtain ⟨hle_a, hle_b, hm_slice, hrest⟩ := hb
    rw [List.foldl_cons]
    rw [collapseStep]
    by_cases hadj : cur.a + cur.size = m.a ∧ cur.b + cur.size = m.b
    rotate_left
    · rw [if_neg hadj]
      -- not adjacent: flush the pending block, restart at m
      refine ih m (if cur.size ≠ 0 then acc ++ [cur] else acc) hrest ?_
        hm_slice ?_
        (fun m' hm' => hpos m' (List.mem_cons_of_mem _ hm'))
      · split_ifs with hsz
        · exact blocksOk_append cur.a cur.b hacc
            ⟨le_rfl, le_rfl, hslice, hle_a, hle_b⟩
        · obtain ⟨hanil, _⟩ := hzero (not_not.1 hsz)
          rw [hanil]
          exact ⟨Nat.zero_le _, Nat.zero_le _⟩
      · intro hs
        exact absurd hs (hpos m (List.mem_cons_self m rest))
    · rw [if_pos hadj]
      -- adjacent: merge into the pending block
      obtain ⟨hadj1, hadj2⟩ := hadj
      refine ih ⟨cur.a, cur.b, cur.size + m.size⟩ acc ?_ hacc ?_ ?_
        (fun m' hm' => hpos m' (List.mem_cons_of_mem _ hm'))
      · dsimp only
        have e1 : cur.a + (cur.size + m.size) = m.a + m.size := by omega
        have e2 : cur.b + (cur.size + m.size) = m.b + m.size := by omega
        rw [e1, e2]
        exact hrest
      · dsimp only
        have e1 : cur.a + (cur.size + m.size) = m.a + m.size := by omega
        have e2 : cur.b + (cur.size + m.size) = m.b + m.size := by omega
        rw [e1, e2,
          sliceL_append_mid a (Nat.le_add_right cur.a cur.size)
            (by omega : cur.a + cur.size ≤ m.a + m.size),
          sliceL_append_mid b (Nat.le_add_right cur.b cur.size)
            (by omega : cur.b + cur.size ≤ m.b + m.size),
          hslice, hadj1, hadj2, hm_slice]
      · intro hs
        exact absurd hs (by
          dsimp only
          have := hpos m (List.mem_cons_self m rest)
          omega)

lemma collapseAdjacent_ok {a b : List α} {ahi bhi : Nat}
    {blocks : List Match} (h : BlocksOk a b 0 0 blocks ahi bhi)
    (hpos : ∀ m ∈ blocks, m.size ≠ 0) :
    BlocksOk a b 0 0 (collapseAdjacent blocks) ahi bhi := by
  have h0 := collapse_fold_ok blocks ⟨0, 0, 0⟩ []
    (by dsimp only; simpa using h)
    (⟨le_rfl, le_rfl⟩ : BlocksOk a b 0 0 [] 0 0)
    (by dsimp only; rw [sliceL_self, sliceL_self])
    (fun _ => ⟨rfl, rfl⟩) hpos
  obtain ⟨hacc, hslice, hzero, hea, heb⟩ := h0
  rw [collapseAdjacent]
  rcases hfold : List.foldl collapseStep (⟨0, 0, 0⟩, []) blocks
    with ⟨cur, acc⟩
  rw [hfold] at hacc hslice hzero hea heb
  dsimp only at hacc hslice hzero hea heb ⊢
  split_ifs with hsz
  · exact blocksOk_append _ _ hacc ⟨le_rfl, le_rfl, hslice, hea, heb⟩
  · obtain ⟨hanil, _⟩ := hzero (not_not.1 hsz)
    rw [hanil]
    exact ⟨Nat.zero_le _, Nat.zero_le _⟩

lemma pyB2j_get (b : List α) : ∀ x j, j ∈ pyB2j b x → b.get? j = some x := by
  intro x j hj
  rw [pyB2j] at hj
  split_ifs at hj
  · exact absurd hj (List.not_mem_nil j)
  · rw [b2jAll] at hj
    have := (List.mem_filter.1 hj).2
    exact of_decide_eq_true this

lemma get_matching_blocks_ok (a b : List α) :
    BlocksOk a b 0 0 (get_matching_blocks a b) a.length b.length := by
  rw [get_matching_blocks]
  refine blocksOk_append a.length b.length ?_ ?_
  · exact collapseAdjacent_ok
      (blocksAux_ok (pyB2j_get b) _ 0 a.length 0 b.length
        (Nat.zero_le _) (Nat.zero_le _))
      (blocksAux_pos _ 0 a.length 0 b.length)
  · refine ⟨le_rfl, le_rfl, ?_, ?_, ?_⟩ <;> dsimp only
    · rw [Nat.add_zero, Nat.add_zero, sliceL_self, sliceL_self]
    · omega
    · omega

/-- Internal consistency of one opcode for `a`, `b`: ranges are ordered,
an `equal` opcode relates equal slices of equal length, and pure
insertions/deletions span nothing on the other side. -/
def OpOk (a b : List α) (c : Opcode) : Prop :=
  c.i1 ≤ c.i2 ∧ c.j1 ≤ c.j2 ∧
  (c.tag = Tag.equal →
    sliceL a c.i1 c.i2 = sliceL b c.j1 c.j2 ∧ c.i2 - c.i1 = c.j2 - c.j1) ∧
  (c.tag = Tag.insert → c.i1 = c.i2) ∧
  (c.tag = Tag.delete → c.j1 = c.j2)

/-- A contiguous chain of consistent opcodes starting at `(i, j)`. -/
def OpsChain (a b : List α) : Nat → Nat → List Opcode → Prop
  | _, _, [] => True
  | i, j, c :: rest =>
    c.i1 = i ∧ c.j1 = j ∧ OpOk a b c ∧ OpsChain a b c.i2 c.j2 rest

lemma opOk_replace {a b : List α} {i1 i2 j1 j2 : Nat} (h1 : i1 ≤ i2)
    (h2 : j1 ≤ j2) : OpOk a b ⟨Tag.replace, i1, i2, j1, j2⟩ :=
  ⟨h1, h2, fun h => Tag.noConfusion h, fun h => Tag.noConfusion h,
    fun h => Tag.noConfusion h⟩

lemma opOk_delete {a b : List α} {i1 i2 j1 : Nat} (h1 : i1 ≤ i2) :
    OpOk a b ⟨Tag.delete, i1, i2, j1, j1⟩ :=
  ⟨h1, le_rfl, fun h => Tag.noConfusion h, fun h => Tag.noConfusion h,
    fun _ => rfl⟩

lemma opOk_insert {a b : List α} {i1 j1 j2 : Nat} (h2 : j1 ≤ j2) :
    OpOk a b ⟨Tag.insert, i1, i1, j1, j2⟩ :=
  ⟨le_rfl, h2, fun h => Tag.noConfusion h, fun _ => rfl,
    fun h => Tag.noConfusion h⟩

lemma opOk_equal {a b : List α} {i1 i2 j1 j2 : Nat}
    (hs : sliceL a i1 i2 = sliceL b j1 j2) (h1 : i1 ≤ i2) (h2 : j1 ≤ j2)
    (hd : i2 - i1 = j2 - j1) : OpOk a b ⟨Tag.equal, i1, i2, j1, j2⟩ :=
  ⟨h1, h2, fun _ => ⟨hs, hd⟩, fun h => Tag.noConfusion h,
    fun h => Tag.noConfusion h⟩

/-- The opcodes emitted by the `get_opcodes` loop from state `(i, j)` over
the remaining matching blocks. -/
def opsFrom : Nat → Nat → List Match → List Opcode
  | _, _, [] => []
  | i, j, m :: rest =>
    (if i < m.a ∧ j < m.b then [⟨Tag.replace, i, m.a, j, m.b⟩]
     else if i < m.a then [⟨Tag.delete, i, m.a, j, m.b⟩]
     else if j < m.b then [⟨Tag.insert, i, m.a, j, m.b⟩]
     else []) ++
    (if m.size ≠ 0 then
      [⟨Tag.equal, m.a, m.a + m.size, m.b, m.b + m.size⟩]
     else []) ++
    opsFrom (m.a + m.size) (m.b + m.size) rest

lemma foldl_opcodeStep_eq :
    ∀ (blocks : List Match) (i j : Nat) (acc : List Opcode),
      (blocks.foldl opcodeStep ((i, j), acc)).2 =
        acc ++ opsFrom i j blocks := by
  intro blocks
  induction blocks with
  | nil =>
    intro i j acc
    simp [opsFrom]
  | cons m rest ih =>
    intro i j acc
    rw [List.foldl_cons, opcodeStep]
    rw [ih, opsFrom]
    simp [List.append_assoc]

lemma get_opcodes_eq (a b : List α) :
    get_opcodes a b = opsFrom 0 0 (get_matching_blocks a b) := by
  rw [get_opcodes, foldl_opcodeStep_eq]
  simp

lemma opsFrom_chain {a b : List α} (ahi bhi : Nat) :
    ∀ (blocks : List Match) (i j : Nat),
      BlocksOk a b i j blocks ahi bhi →
      OpsChain a b i j (opsFrom i j blocks) := by
  intro blocks
  induction blocks with
  | nil =>
    intro i j _
    trivial
  | cons m rest ih =>
    intro i j hb
    obtain ⟨hia, hjb, hslice, hrest⟩ := hb
    have hrec := ih (m.a + m.size) (m.b + m.size) hrest
    rw [opsFrom]
    have htail : OpsChain a b m.a m.b
        ((if m.size ≠ 0 then
            [⟨Tag.equal, m.a, m.a + m.size, m.b, m.b + m.size⟩]
          else []) ++
          opsFrom (m.a + m.size) (m.b + m.size) rest) := by
      by_cases hz : m.size = 0
      · rw [if_neg (not_not_intro hz), List.nil_append]
        have e1 : m.a + m.size = m.a := by omega
        have e2 : m.b + m.size = m.b := by omega
        rw [e1, e2] at hrec ⊢
        exact hrec
      · rw [if_pos hz, List.singleton_append]
        exact ⟨rfl, rfl,
          opOk_equal hslice (Nat.le_add_right _ _) (Nat.le_add_right _ _)
            (by omega), hrec⟩
    rw [List.append_assoc]
    by_cases h1 : i < m.a ∧ j < m.b
    · rw [if_pos h1, List.singleton_append]
      exact ⟨rfl, rfl, opOk_replace (le_of_lt h1.1) (le_of_lt h1.2), htail⟩
    · rw [if_neg h1]
      by_cases h2 : i < m.a
      · rw [if_pos h2]
        have hjm : j = m.b := by omega
        subst hjm
        rw [List.singleton_append]
        exact ⟨rfl, rfl, opOk_delete (le_of_lt h2), htail⟩
      · rw [if_neg h2]
        have him : i = m.a := by omega
        subst him
        by_cases h3 : j < m.b
        · rw [if_pos h3, List.singleton_append]
          exact ⟨rfl, rfl, opOk_insert (le_of_lt h3), htail⟩
        · rw [if_neg h3, List.nil_append]
          have hjm : j = m.b := by omega
          subst hjm
          exact htail

/-- The endpoint of a contiguous opcode chain started at `(i, j)`. -/
def chainEnd : Nat → Nat → List Opcode → Nat × Nat
  | i, j, [] => (i, j)
  | _, _, c :: rest => chainEnd c.i2 c.j2 rest

lemma chainEnd_append :
    ∀ (L L' : List Opcode) (i j : Nat),
      chainEnd i j (L ++ L') =
        chainEnd (chainEnd i j L).1 (chainEnd i j L).2 L' := by
  intro L
  induction L with
  | nil => intro L' i j; rfl
  | cons c rest ih => intro L' i j; exact ih L' c.i2 c.j2

lemma opsChain_append {a b : List α} :
    ∀ {L : List Opcode} {i j : Nat} {L' : List Opcode},
      OpsChain a b i j L →
      OpsChain a b (chainEnd i j L).1 (chainEnd i j L).2 L' →
      OpsChain a b i j (L ++ L') := by
  intro L
  induction L with
  | nil =>
    intro i j L' _ h2
    exact h2
  | cons c rest ih =>
    intro i j L' h1 h2
    exact ⟨h1.1, h1.2.1, h1.2.2.1, ih h1.2.2.2 h2⟩

lemma opOk_trim_left {a b : List α} {c : Opcode} (n : Nat)
    (h : OpOk a b c) (hc : c.tag = Tag.equal) :
    OpOk a b ⟨c.tag, max c.i1 (c.i2 - n), c.i2,
      max c.j1 (c.j2 - n), c.j2⟩ := by
  obtain ⟨h1, h2, heq, _, _⟩ := h
  obtain ⟨hs, hd⟩ := heq hc
  have e1 : max c.i1 (c.i2 - n) =
      c.i1 + ((c.i2 - c.i1) - min (c.i2 - c.i1) n) := by omega
  have e2 : max c.j1 (c.j2 - n) =
      c.j1 + ((c.i2 - c.i1) - min (c.i2 - c.i1) n) := by omega
  refine ⟨?_, ?_, fun _ => ⟨?_, ?_⟩,
    fun hi => Tag.noConfusion (hc.symm.trans hi),
    fun hdel => Tag.noConfusion (hc.symm.trans hdel)⟩ <;> dsimp only
  · omega
  · omega
  · rw [e1, e2, sliceL_drop_left, sliceL_drop_left, hs]
  · omega

lemma opOk_trim_right {a b : List α} {c : Opcode} (n : Nat)
    (h : OpOk a b c) (hc : c.tag = Tag.equal) :
    OpOk a b ⟨c.tag, c.i1, min c.i2 (c.i1 + n),
      c.j1, min c.j2 (c.j1 + n)⟩ := by
  obtain ⟨h1, h2, heq, _, _⟩ := h
  obtain ⟨hs, hd⟩ := heq hc
  have e1 : min c.i2 (c.i1 + n) = c.i1 + min (c.i2 - c.i1) n := by omega
  have e2 : min c.j2 (c.j1 + n) = c.j1 + min (c.i2 - c.i1) n := by omega
  refine ⟨?_, ?_, fun _ => ⟨?_, ?_⟩,
    fun hi => Tag.noConfusion (hc.symm.trans hi),
    fun hdel => Tag.noConfusion (hc.symm.trans hdel)⟩ <;> dsimp only
  · omega
  · omega
  · rw [e1, e2,
      sliceL_take_right a (show c.i1 + min (c.i2 - c.i1) n ≤ c.i2 by omega),
      sliceL_take_right b (show c.j1 + min (c.i2 - c.i1) n ≤ c.j2 by omega),
      hs]
  · omega

/-- `mapLast` with a function that fixes the left endpoints and preserves
consistency keeps a chain a chain. -/
lemma opsChain_mapLast {a b : List α} {f : Opcode → Opcode}
    (hf : ∀ c, OpOk a b c → OpOk a b (f c))
    (hf1 : ∀ c, (f c).i1 = c.i1 ∧ (f c).j1 = c.j1) :
    ∀ (L : List Opcode) (i j : Nat),
      OpsChain a b i j L → OpsChain a b i j (mapLast f L) := by
  intro L
  induction L with
  | nil =>
    intro i j h
    exact h
  | cons c rest ih =>
    intro i j h
    obtain ⟨hc1, hc2, hok, hrest⟩ := h
    cases rest with
    | nil =>
      exact ⟨(hf1 c).1.trans hc1, (hf1 c).2.trans hc2, hf c hok, trivial⟩
    | cons c' rest' =>
      exact ⟨hc1, hc2, hok, ih c.i2 c.j2 hrest⟩

set_option maxHeartbeats 1000000 in
lemma get_opcodes_chain (a b : List α) :
    OpsChain a b 0 0 (get_opcodes a b) := by
  have h := opsFrom_chain a.length b.length (get_matching_blocks a b) 0 0
    (get_matching_blocks_ok a b)
  rw [get_opcodes_eq]
  exact h

lemma opsChain_head {a b : List α} :
    ∀ {g : List Opcode} {i j : Nat}, OpsChain a b i j g → g ≠ [] →
      OpsChain a b (g.headD dummyOp).i1 (g.headD dummyOp).j1 g := by
  intro g i j h hne
  cases g with
  | nil => exact absurd rfl hne
  | cons c rest =>
    obtain ⟨h1, h2, h3, h4⟩ := h
    exact ⟨rfl, rfl, h3, h4⟩

lemma collapse_fold_acc_pos :
    ∀ (blocks : List Match) (cur : Match) (acc : List Match),
      (∀ m ∈ acc, m.size ≠ 0) →
      ∀ m' ∈ (blocks.foldl collapseStep (cur, acc)).2, m'.size ≠ 0 := by
  intro blocks
  induction blocks with
  | nil =>
    intro cur acc hacc m' hm'
    exact hacc m' hm'
  | cons m rest ih =>
    intro cur acc hacc m' hm'
    rw [List.foldl_cons, collapseStep] at hm'
    by_cases hadj : cur.a + cur.size = m.a ∧ cur.b + cur.size = m.b
    · rw [if_pos hadj] at hm'
      exact ih _ _ hacc m' hm'
    · rw [if_neg hadj] at hm'
      refine ih _ _ ?_ m' hm'
      intro q hq
      by_cases hsz : cur.size ≠ 0
      · rw [if_pos hsz] at hq
        rcases List.mem_append.1 hq with h | h
        · exact hacc q h
        · rw [List.mem_singleton.1 h]
          exact hsz
      · rw [if_neg hsz] at hq
        exact hacc q hq

lemma collapse_fold_cur_pos :
    ∀ (blocks : List Match) (cur : Match) (acc : List Match),
      (cur.size ≠ 0 ∨ blocks ≠ []) → (∀ m ∈ blocks, m.size ≠ 0) →
      (blocks.foldl collapseStep (cur, acc)).1.size ≠ 0 := by
  intro blocks
  induction blocks with
  | nil =>
    intro cur acc hd _
    rcases hd with h | h
    · exact h
    · exact absurd rfl h
  | cons m rest ih =>
    intro cur acc _ hpos
    rw [List.foldl_cons, collapseStep]
    by_cases hadj : cur.a + cur.size = m.a ∧ cur.b + cur.size = m.b
    · rw [if_pos hadj]
      refine ih _ _ (Or.inl ?_)
        (fun q hq => hpos q (List.mem_cons_of_mem _ hq))
      dsimp only
      have := hpos m (List.mem_cons_self m rest)
      omega
    · rw [if_neg hadj]
      exact ih _ _ (Or.inl (hpos m (List.mem_cons_self m rest)))
        (fun q hq => hpos q (List.mem_cons_of_mem _ hq))

lemma collapseAdjacent_mem_pos {blocks : List Match} :
    ∀ m' ∈ collapseAdjacent blocks, m'.size ≠ 0 := by
  intro m' hm'
  rw [collapseAdjacent] at hm'
  have hacc := collapse_fold_acc_pos blocks ⟨0, 0, 0⟩ []
    (fun q hq => absurd hq (List.not_mem_nil q))
  rcases hfold : List.foldl collapseStep (⟨0, 0, 0⟩, []) blocks
    with ⟨cur, acc⟩
  rw [hfold] at hm' hacc
  dsimp only at hm' hacc
  by_cases hsz : cur.size ≠ 0
  · rw [if_pos hsz] at hm'
    rcases List.mem_append.1 hm' with h | h
    · exact hacc m' h
    · rw [List.mem_singleton.1 h]
      exact hsz
  · rw [if_neg hsz] at hm'
    exact hacc m' hm'

lemma collapseAdjacent_exists_pos {blocks : List Match}
    (hne : blocks ≠ []) (hpos : ∀ m ∈ blocks, m.size ≠ 0) :
    ∃ m' ∈ collapseAdjacent blocks, m'.size ≠ 0 := by
  rw [collapseAdjacent]
  have hcur := collapse_fold_cur_pos blocks ⟨0, 0, 0⟩ [] (Or.inr hne) hpos
  rcases hfold : List.foldl collapseStep (⟨0, 0, 0⟩, []) blocks
    with ⟨cur, acc⟩
  rw [hfold] at hcur
  dsimp only at hcur ⊢
  rw [if_pos hcur]
  exact ⟨cur, List.mem_append.2 (Or.inr (List.mem_singleton.2 rfl)), hcur⟩

lemma opsFrom_exists_equal :
    ∀ (blocks : List Match) (i j : Nat),
      (∃ m ∈ blocks, m.size ≠ 0) →
      ∃ c ∈ opsFrom i j blocks, c.tag = Tag.equal ∧ c.i1 < c.i2 := by
  intro blocks
  induction blocks with
  | nil =>
    intro i j h
    obtain ⟨m, hm, _⟩ := h
    exact absurd hm (List.not_mem_nil m)
  | cons m rest ih =>
    intro i j h
    rw [opsFrom]
    obtain ⟨m', hm', hsz'⟩ := h
    rcases List.mem_cons.1 hm' with hhead | htail
    · subst hhead
      refine ⟨⟨Tag.equal, m'.a, m'.a + m'.size, m'.b, m'.b + m'.size⟩,
        ?_, rfl, by dsimp only; omega⟩
      rw [List.append_assoc]
      refine List.mem_append.2 (Or.inr ?_)
      rw [if_pos hsz']
      exact List.mem_append.2 (Or.inl (List.mem_singleton.2 rfl))
    · obtain ⟨c, hc, hceq⟩ := ih (m.a + m.size) (m.b + m.size) ⟨m', htail, hsz'⟩
      exact ⟨c, List.mem_append.2 (Or.inr hc), hceq⟩

lemma get_opcodes_nil {a b : List α} (h : get_opcodes a b = []) :
    a = [] ∧ b = [] := by
  rw [get_opcodes_eq, get_matching_blocks] at h
  cases hcol : collapseAdjacent
      (matchingBlocksAux a b (pyB2j b) (a.length + b.length + 1)
        0 a.length 0 b.length) with
  | cons m rest =>
    have hposm : m.size ≠ 0 :=
      collapseAdjacent_mem_pos m (hcol ▸ List.mem_cons_self m rest)
    rw [hcol, List.cons_append, opsFrom] at h
    rw [if_pos hposm] at h
    simp at h
  | nil =>
    rw [hcol, List.nil_append, opsFrom] at h
    dsimp only at h
    rw [if_neg (by omega : ¬((0 : Nat) ≠ 0)), List.append_nil] at h
    by_cases h1 : 0 < a.length ∧ 0 < b.length
    · rw [if_pos h1] at h
      simp at h
    · rw [if_neg h1] at h
      by_cases h2 : 0 < a.length
      · rw [if_pos h2] at h
        simp at h
      · rw [if_neg h2] at h
        by_cases h3 : 0 < b.length
        · rw [if_pos h3] at h
          simp at h
        · exact ⟨List.length_eq_zero.1 (by omega),
            List.length_eq_zero.1 (by omega)⟩

lemma groupSplit_ok {a b : List α} {n : Nat} :
    ∀ (codes group : List Opcode) (gi gj : Nat),
      OpsChain a b gi gj group →
      OpsChain a b (chainEnd gi gj group).1 (chainEnd gi gj group).2 codes →
      ∀ g ∈ groupSplit n group codes,
        g ≠ [] ∧
        OpsChain a b (g.headD dummyOp).i1 (g.headD dummyOp).j1 g := by
  intro codes
  induction codes with
  | nil =>
    intro group gi gj hgroup _ g hg
    rw [groupSplit] at hg
    split_ifs at hg with hcond
    · rw [List.mem_singleton.1 hg]
      exact ⟨hcond.1, opsChain_head hgroup hcond.1⟩
    · exact absurd hg (List.not_mem_nil g)
  | cons c rest ih =>
    intro group gi gj hgroup hcodes g hg
    rw [groupSplit] at hg
    obtain ⟨hci1, hcj1, hcok, hcrest⟩ := hcodes
    by_cases hsplit : c.tag = Tag.equal ∧ n + n < c.i2 - c.i1
    · rw [if_pos hsplit] at hg
      rcases List.mem_cons.1 hg with hghead | hgtail
      · subst hghead
        have hchain : OpsChain a b gi gj (group ++
            [⟨c.tag, c.i1, min c.i2 (c.i1 + n), c.j1,
              min c.j2 (c.j1 + n)⟩]) :=
          opsChain_append hgroup
            ⟨hci1, hcj1, opOk_trim_right n hcok hsplit.1, trivial⟩
        have hne : (group ++
            [(⟨c.tag, c.i1, min c.i2 (c.i1 + n), c.j1,
              min c.j2 (c.j1 + n)⟩ : Opcode)]) ≠ [] := by
          simp
        exact ⟨hne, opsChain_head hchain hne⟩
      · exact ih
          [⟨c.tag, max c.i1 (c.i2 - n), c.i2, max c.j1 (c.j2 - n), c.j2⟩]
          (max c.i1 (c.i2 - n)) (max c.j1 (c.j2 - n))
          ⟨rfl, rfl, opOk_trim_left n hcok hsplit.1, trivial⟩ hcrest g hgtail
    · rw [if_neg hsplit] at hg
      refine ih (group ++ [c]) gi gj
        (opsChain_append hgroup ⟨hci1, hcj1, hcok, trivial⟩) ?_ g hg
      rw [chainEnd_append]
      exact hcrest

set_option maxHeartbeats 1000000 in
lemma get_grouped_opcodes_ok (a b : List α) (n : Nat) :
    ∀ g ∈ get_grouped_opcodes a b n,
      g ≠ [] ∧
      OpsChain a b (g.headD dummyOp).i1 (g.headD dummyOp).j1 g := by
  intro g hg
  rw [get_grouped_opcodes] at hg
  obtain ⟨codes1, hcodes1eq, hchain1⟩ :
      ∃ cs, (if get_opcodes a b = [] then
          [(⟨Tag.equal, 0, 1, 0, 1⟩ : Opcode)] else get_opcodes a b) = cs ∧
        OpsChain a b 0 0 cs := by
    by_cases hnil : get_opcodes a b = []
    · refine ⟨[⟨Tag.equal, 0, 1, 0, 1⟩], if_pos hnil, ?_⟩
      obtain ⟨ha, hb⟩ := get_opcodes_nil hnil
      subst ha
      subst hb
      exact ⟨rfl, rfl,
        opOk_equal (by rfl) (by omega) (by omega) (by omega), trivial⟩
    · exact ⟨get_opcodes a b, if_neg hnil, get_opcodes_chain a b⟩
  rw [hcodes1eq] at hg
  have hchain2 : ∃ i2 j2, OpsChain a b i2 j2 (trimLeading n codes1) := by
    cases hcs : codes1 with
    | nil => exact ⟨0, 0, trivial⟩
    | cons c restc =>
      rw [hcs] at hchain1
      obtain ⟨hh1, hh2, hhok, hhrest⟩ := hchain1
      rw [trimLeading]
      by_cases heq : c.tag = Tag.equal
      · rw [if_pos heq]
        exact ⟨max c.i1 (c.i2 - n), max c.j1 (c.j2 - n),
          ⟨rfl, rfl, opOk_trim_left n hhok heq, hhrest⟩⟩
      · rw [if_neg heq]
        exact ⟨c.i1, c.j1, ⟨rfl, rfl, hhok, hhrest⟩⟩
  obtain ⟨i2, j2, hchain2'⟩ := hchain2
  have hchain3 : OpsChain a b i2 j2
      (mapLast (trimTrailingOp n) (trimLeading n codes1)) := by
    refine opsChain_mapLast ?_ ?_ _ _ _ hchain2'
    · intro c hok
      rw [trimTrailingOp]
      by_cases heq : c.tag = Tag.equal
      · rw [if_pos heq]
        exact opOk_trim_right n hok heq
      · rw [if_neg heq]
        exact hok
    · intro c
      rw [trimTrailingOp]
      by_cases heq : c.tag = Tag.equal
      · rw [if_pos heq]
        exact ⟨rfl, rfl⟩
      · rw [if_neg heq]
        exact ⟨rfl, rfl⟩
  exact groupSplit_ok (mapLast (trimTrailingOp n) (trimLeading n codes1))
    [] i2 j2 trivial hchain3 g hg

/-- The tagged body lines of one hunk, exactly as `unified_diff` emits
them (the group's lines without the `@@` header). -/
def hunkBody (a b : List Line) (g : List Opcode) : List Line :=
  g.foldr (fun c acc => opLines a b c ++ acc) []

/-- The old-side reconstruction of a rendered hunk: its context and delete
lines, with the tag character removed. -/
def hunkOldLines (ls : List Line) : List Line :=
  (ls.filter (fun l => l.head? = some ' ' || l.head? = some '-')).map
    List.tail

/-- The new-side reconstruction of a rendered hunk: its context and insert
lines, with the tag character removed. -/
def hunkNewLines (ls : List Line) : List Line :=
  (ls.filter (fun l => l.head? = some ' ' || l.head? = some '+')).map
    List.tail

lemma filter_tagged_keep {t : Char} {p : Line → Bool}
    (hp : ∀ s, p (t :: s) = true) :
    ∀ ls : List Line,
      (ls.map (fun s => t :: s)).filter p = ls.map (fun s => t :: s) := by
  intro ls
  induction ls with
  | nil => rfl
  | cons x xs ih => simp [hp, ih]

lemma filter_tagged_drop {t : Char} {p : Line → Bool}
    (hp : ∀ s, p (t :: s) = false) :
    ∀ ls : List Line, (ls.map (fun s => t :: s)).filter p = [] := by
  intro ls
  induction ls with
  | nil => rfl
  | cons x xs ih => simp [hp, ih]

lemma tail_tagged (t : Char) :
    ∀ ls : List Line, ((ls.map (fun s => t :: s)).map List.tail) = ls := by
  intro ls
  induction ls with
  | nil => rfl
  | cons x xs ih => simp [ih]

lemma hunkOldLines_append (x y : List Line) :
    hunkOldLines (x ++ y) = hunkOldLines x ++ hunkOldLines y := by
  simp [hunkOldLines, List.filter_append]

lemma hunkNewLines_append (x y : List Line) :
    hunkNewLines (x ++ y) = hunkNewLines x ++ hunkNewLines y := by
  simp [hunkNewLines, List.filter_append]

lemma opLines_extract {a b : List Line} {c : Opcode} (h : OpOk a b c) :
    hunkOldLines (opLines a b c) = sliceL a c.i1 c.i2 ∧
    hunkNewLines (opLines a b c) = sliceL b c.j1 c.j2 := by
  obtain ⟨h1, h2, heq, hins, hdel⟩ := h
  rw [opLines]
  cases htag : c.tag with
  | equal =>
    obtain ⟨hs, hd⟩ := heq htag
    rw [if_pos rfl]
    constructor
    · rw [hunkOldLines, filter_tagged_keep (fun s => rfl), tail_tagged]
    · rw [hunkNewLines, filter_tagged_keep (fun s => rfl), tail_tagged, hs]
  | replace =>
    rw [if_neg (by decide), if_pos (Or.inl rfl), if_pos (Or.inl rfl)]
    constructor
    · rw [hunkOldLines, List.filter_append,
        filter_tagged_keep (fun s => rfl),
        filter_tagged_drop (fun s => rfl), List.append_nil, tail_tagged]
    · rw [hunkNewLines, List.filter_append,
        filter_tagged_drop (fun s => rfl),
        filter_tagged_keep (fun s => rfl), List.nil_append, tail_tagged]
  | delete =>
    rw [if_neg (by decide), if_pos (Or.inr rfl), if_neg (by decide),
      List.append_nil]
    constructor
    · rw [hunkOldLines, filter_tagged_keep (fun s => rfl), tail_tagged]
    · rw [hunkNewLines, filter_tagged_drop (fun s => rfl), List.map_nil,
        hdel htag, sliceL_self]
  | insert =>
    rw [if_neg (by decide), if_neg (by decide), if_pos (Or.inr rfl),
      List.nil_append]
    constructor
    · rw [hunkOldLines, filter_tagged_drop (fun s => rfl), List.map_nil,
        hins htag, sliceL_self]
    · rw [hunkNewLines, filter_tagged_keep (fun s => rfl), tail_tagged]

lemma opsChain_last_le {a b : List α} :
    ∀ {g : List Opcode} {i j : Nat}, OpsChain a b i j g → g ≠ [] →
      i ≤ (g.getLastD dummyOp).i2 ∧ j ≤ (g.getLastD dummyOp).j2 := by
  intro g
  induction g with
  | nil =>
    intro i j _ hne
    exact absurd rfl hne
  | cons c rest ih =>
    intro i j hchain _
    obtain ⟨hc1, hc2, hok, hrest⟩ := hchain
    subst hc1
    subst hc2
    cases rest with
    | nil => exact ⟨hok.1, hok.2.1⟩
    | cons c' rest' =>
      have hlasteq : ((c :: c' :: rest').getLastD dummyOp) =
          ((c' :: rest').getLastD dummyOp) := by
        rw [List.getLastD_cons, List.getLastD_cons, List.getLastD_cons]
      obtain ⟨ha, hb⟩ := ih hrest (by simp)
      rw [hlasteq]
      exact ⟨le_trans hok.1 ha, le_trans hok.2.1 hb⟩

lemma hunkBody_extract {a b : List Line} :
    ∀ (g : List Opcode) (i j : Nat), OpsChain a b i j g → g ≠ [] →
      hunkOldLines (hunkBody a b g) =
        sliceL a i (g.getLastD dummyOp).i2 ∧
      hunkNewLines (hunkBody a b g) =
        sliceL b j (g.getLastD dummyOp).j2 := by
  intro g
  induction g with
  | nil =>
    intro i j _ hne
    exact absurd rfl hne
  | cons c rest ih =>
    intro i j hchain _
    obtain ⟨hc1, hc2, hok, hrest⟩ := hchain
    subst hc1
    subst hc2
    obtain ⟨hoc, hnc⟩ := opLines_extract hok
    cases rest with
    | nil =>
      simp only [hunkBody, List.foldr_cons, List.foldr_nil, List.append_nil]
      exact ⟨hoc, hnc⟩
    | cons c' rest' =>
      obtain ⟨hold, hnew⟩ := ih c.i2 c.j2 hrest (by simp)
      have hlast := opsChain_last_le hrest (by simp)
      have hlasteq : ((c :: c' :: rest').getLastD dummyOp) =
          ((c' :: rest').getLastD dummyOp) := by
        rw [List.getLastD_cons, List.getLastD_cons, List.getLastD_cons]
      have hbody : hunkBody a b (c :: c' :: rest') =
          opLines a b c ++ hunkBody a b (c' :: rest') := rfl
      constructor
      · rw [hbody, hunkOldLines_append, hoc, hold, hlasteq,
          ← sliceL_append_mid a hok.1 hlast.1]
      · rw [hbody, hunkNewLines_append, hnc, hnew, hlasteq,
          ← sliceL_append_mid b hok.2.1 hlast.2]

lemma innerLoop_size_mono {blo bhi i : Nat} {j2len : Nat → Nat} :
    ∀ (js : List Nat) (newj2len : Nat → Nat) (best : Match),
      best.size ≤ (innerLoop blo bhi i j2len js newj2len best).2.size := by
  intro js
  induction js with
  | nil =>
    intro newj2len best
    exact le_rfl
  | cons j js ih =>
    intro newj2len best
    rw [innerLoop]
    by_cases hblo : j < blo
    · rw [if_pos hblo]
      exact ih _ _
    · rw [if_neg hblo]
      by_cases hbhi : bhi ≤ j
      · rw [if_pos hbhi]
      · rw [if_neg hbhi]
        set k := (if j = 0 then 0 else j2len (j - 1)) + 1 with hk
        refine le_trans ?_ (ih _ _)
        split_ifs with hlt
        · dsimp only
          omega
        · exact le_rfl

lemma innerLoop_hit {blo bhi i : Nat} {j2len : Nat → Nat} {j : Nat} :
    ∀ (js : List Nat) (newj2len : Nat → Nat) (best : Match),
      j ∈ js → blo ≤ j → (∀ j' ∈ js, j' < bhi) →
      1 ≤ (innerLoop blo bhi i j2len js newj2len best).2.size := by
  intro js
  induction js with
  | nil =>
    intro _ _ h _ _
    exact absurd h (List.not_mem_nil j)
  | cons j' js ih =>
    intro newj2len best hmem hblo hall
    rw [innerLoop]
    by_cases h1 : j' < blo
    · rw [if_pos h1]
      rcases List.mem_cons.1 hmem with he | ht
      · exact absurd h1 (not_lt.2 (he ▸ hblo))
      · exact ih _ _ ht hblo (fun q hq => hall q (List.mem_cons_of_mem _ hq))
    · rw [if_neg h1]
      by_cases h2 : bhi ≤ j'
      · exact absurd (hall j' (List.mem_cons_self _ _)) (not_lt.2 h2)
      · rw [if_neg h2]
        set k := (if j' = 0 then 0 else j2len (j' - 1)) + 1 with hk
        refine le_trans ?_ (innerLoop_size_mono _ _ _)
        split_ifs with hlt
        · dsimp only
          omega
        · omega

lemma outerLoop_cons (a : List α) (b2jf : α → List Nat)
    (blo bhi i : Nat) (rest : List Nat) (j2len : Nat → Nat) (best : Match) :
    outerLoop a b2jf blo bhi (i :: rest) j2len best =
      outerLoop a b2jf blo bhi rest
        (innerLoop blo bhi i j2len
          (match a.get? i with | none => [] | some x => b2jf x)
          (fun _ => 0) best).1
        (innerLoop blo bhi i j2len
          (match a.get? i with | none => [] | some x => b2jf x)
          (fun _ => 0) best).2 := rfl

lemma outerLoop_size_mono {a : List α} {b2jf : α → List Nat}
    {blo bhi : Nat} :
    ∀ (ilist : List Nat) (j2len : Nat → Nat) (best : Match),
      best.size ≤ (outerLoop a b2jf blo bhi ilist j2len best).size := by
  intro ilist
  induction ilist with
  | nil =>
    intro _ best
    exact le_rfl
  | cons i rest ih =>
    intro j2len best
    rw [outerLoop_cons]
    exact le_trans (innerLoop_size_mono _ _ _) (ih _ _)

lemma outerLoop_hit {a : List α} {b2jf : α → List Nat} {blo bhi i j : Nat}
    {x : α} (hx : a.get? i = some x) (hj : j ∈ b2jf x) (hjlo : blo ≤ j)
    (hall : ∀ j' ∈ b2jf x, j' < bhi) :
    ∀ (ilist : List Nat) (j2len : Nat → Nat) (best : Match), i ∈ ilist →
      1 ≤ (outerLoop a b2jf blo bhi ilist j2len best).size := by
  intro ilist
  induction ilist with
  | nil =>
    intro _ _ h
    exact absurd h (List.not_mem_nil i)
  | cons i' rest ih =>
    intro j2len best hmem
    rw [outerLoop_cons]
    by_cases he : i' = i
    · subst he
      rw [hx]
      exact le_trans (innerLoop_hit _ _ _ hj hjlo hall)
        (outerLoop_size_mono _ _ _)
    · rcases List.mem_cons.1 hmem with h | h
      · exact absurd h.symm he
      · exact ih _ _ h

lemma extendLower_size_mono {a b : List α} {alo blo : Nat} :
    ∀ (fuel : Nat) (m : Match),
      m.size ≤ (extendLower a b alo blo fuel m).size := by
  intro fuel
  induction fuel with
  | zero =>
    intro m
    exact le_rfl
  | succ fuel ih =>
    intro m
    rw [extendLower]
    split_ifs with hc
    · exact le_trans (by dsimp only; omega) (ih _)
    · exact le_rfl

lemma extendUpper_size_mono {a b : List α} {ahi bhi : Nat} :
    ∀ (fuel : Nat) (m : Match),
      m.size ≤ (extendUpper a b ahi bhi fuel m).size := by
  intro fuel
  induction fuel with
  | zero =>
    intro m
    exact le_rfl
  | succ fuel ih =>
    intro m
    rw [extendUpper]
    split_ifs with hc
    · exact le_trans (by dsimp only; omega) (ih _)
    · exact le_rfl

lemma find_longest_match_hit {a b : List α} {b2jf : α → List Nat}
    {alo ahi blo bhi i j : Nat} {x : α}
    (hx : a.get? i = some x) (hj : j ∈ b2jf x) (hjlo : blo ≤ j)
    (hall : ∀ j' ∈ b2jf x, j' < bhi) (hi1 : alo ≤ i) (hi2 : i < ahi) :
    1 ≤ (find_longest_match a b b2jf alo ahi blo bhi).size := by
  rw [find_longest_match]
  have hmem : i ∈ List.range' alo (ahi - alo) := by
    rw [List.mem_range']
    exact ⟨i - alo, by omega, by omega⟩
  have h1 := outerLoop_hit hx hj hjlo hall (List.range' alo (ahi - alo))
    (fun _ => 0) ⟨alo, blo, 0⟩ hmem
  exact le_trans h1
    (le_trans (extendLower_size_mono _ _) (extendUpper_size_mono _ _))

lemma pyB2j_lt (b : List α) : ∀ x j, j ∈ pyB2j b x → j < b.length := by
  intro x j hj
  rw [pyB2j] at hj
  split_ifs at hj
  · exact absurd hj (List.not_mem_nil j)
  · rw [b2jAll] at hj
    exact List.mem_range.1 (List.mem_filter.1 hj).1

lemma pyB2j_mem {b : List α} {x : α} {j : Nat} (hlen : b.length < 200)
    (hget : b.get? j = some x) : j ∈ pyB2j b x := by
  rw [pyB2j]
  rw [if_neg (fun h => absurd h.1 (by omega))]
  rw [b2jAll]
  refine List.mem_filter.2 ⟨List.mem_range.2 ?_, decide_eq_true hget⟩
  rw [List.get?_eq_some] at hget
  obtain ⟨w, _⟩ := hget
  exact w

lemma get_matching_blocks_exists_pos {a b : List α}
    (hlen : b.length < 200) {i j : Nat} {x : α}
    (hxi : a.get? i = some x) (hxj : b.get? j = some x) :
    ∃ m ∈ get_matching_blocks a b, m.size ≠ 0 := by
  have hia : i < a.length := by
    rw [List.get?_eq_some] at hxi
    obtain ⟨w, _⟩ := hxi
    exact w
  have hflm : 1 ≤
      (find_longest_match a b (pyB2j b) 0 a.length 0 b.length).size :=
    find_longest_match_hit hxi (pyB2j_mem hlen hxj) (Nat.zero_le _)
      (fun j' hj' => pyB2j_lt b x j' hj') (Nat.zero_le _) hia
  have haux_ne : matchingBlocksAux a b (pyB2j b)
      (a.length + b.length + 1) 0 a.length 0 b.length ≠ [] := by
    rw [matchingBlocksAux]
    rw [if_neg (by omega :
      ¬(find_longest_match a b (pyB2j b) 0 a.length 0 b.length).size = 0)]
    simp
  obtain ⟨m', hm', hm'pos⟩ := collapseAdjacent_exists_pos haux_ne
    (blocksAux_pos (a.length + b.length + 1) 0 a.length 0 b.length)
  rw [get_matching_blocks]
  exact ⟨m', List.mem_append.2 (Or.inl hm'), hm'pos⟩

end Difflib

/-- C1 (counterexample): the Diff Engine's edit script is not minimal.
For `old = ["0","1","0"]` and `new = ["1","2","0"]` (as lines),
`difflib`'s recursive longest-matching-block algorithm matches only the
single line `"0"` (the earliest longest block), producing an edit script
with 2 deletions and 2 insertions (cost 4), while the exhibited valid
edit script keeps the common subsequence `"1","0"` and has cost 2. -/
theorem claim1_counterexample :
    Spec.isEditScript ["0\n".toList, "1\n".toList, "0\n".toList]
        ["1\n".toList, "2\n".toList, "0\n".toList]
        [⟨Difflib.Tag.delete, 0, 1, 0, 0⟩, ⟨Difflib.Tag.equal, 1, 2, 0, 1⟩,
          ⟨Difflib.Tag.insert, 2, 2, 1, 2⟩,
          ⟨Difflib.Tag.equal, 2, 3, 2, 3⟩] = true ∧
    Spec.opsCost
        [⟨Difflib.Tag.delete, 0, 1, 0, 0⟩, ⟨Difflib.Tag.equal, 1, 2, 0, 1⟩,
          ⟨Difflib.Tag.insert, 2, 2, 1, 2⟩,
          ⟨Difflib.Tag.equal, 2, 3, 2, 3⟩] = 2 ∧
    Spec.editCost ["0\n".toList, "1\n".toList, "0\n".toList]
        ["1\n".toList, "2\n".toList, "0\n".toList] = 4 := by
  decide

/-- C1 (amended): the edit script is not always minimal, but the
surviving part of the claim holds: whenever the two line sequences share
at least one common line (and the new sequence is shorter than 200 lines,
so the popularity heuristic is inert), the script matches at least one
line — it contains an `equal` opcode spanning at least one line — so it is
never a full delete-plus-insert of both sequences when a smaller script
exists. -/
theorem claim1_not_full_delete_insert (a b : List Line)
    (hb : b.length < 200) (x : Line) (hxa : x ∈ a) (hxb : x ∈ b) :
    ∃ c ∈ Difflib.get_opcodes a b,
      c.tag = Difflib.Tag.equal ∧ c.i1 < c.i2 := by
  obtain ⟨i, hi⟩ := List.mem_iff_get?.1 hxa
  obtain ⟨j, hj⟩ := List.mem_iff_get?.1 hxb
  have hex := Difflib.get_matching_blocks_exists_pos hb hi hj
  rw [Difflib.get_opcodes_eq]
  exact Difflib.opsFrom_exists_equal (Difflib.get_matching_blocks a b)
    0 0 hex

/-- C1 (witness for `claim1_not_full_delete_insert`). -/
theorem claim1_witness :
    ∃ c ∈ Difflib.get_opcodes ["z\n".toList, "w\n".toList] ["z\n".toList],
      c.tag = Difflib.Tag.equal ∧ c.i1 < c.i2 :=
  claim1_not_full_delete_insert ["z\n".toList, "w\n".toList]
    ["z\n".toList] (by decide) "z\n".toList (by decide) (by decide)

/-- C2 (counterexample): with the default three lines of context, leading
and trailing unchanged runs are trimmed out of the hunks, so concatenating
the context and insert lines of every hunk does not reproduce the full new
sequence (and likewise for the old side): for five-line files differing
only in the last line, the first line appears in no hunk. -/
theorem claim2_counterexample :
    (((Difflib.get_grouped_opcodes
          ["x1\n".toList, "x2\n".toList, "x3\n".toList, "x4\n".toList,
            "c\n".toList]
          ["x1\n".toList, "x2\n".toList, "x3\n".toList, "x4\n".toList,
            "d\n".toList] 3).map (fun g =>
        Difflib.hunkNewLines (Difflib.hunkBody
          ["x1\n".toList, "x2\n".toList, "x3\n".toList, "x4\n".toList,
            "c\n".toList]
          ["x1\n".toList, "x2\n".toList, "x3\n".toList, "x4\n".toList,
            "d\n".toList] g))).flatten ≠
      ["x1\n".toList, "x2\n".toList, "x3\n".toList, "x4\n".toList,
        "d\n".toList]) ∧
    (((Difflib.get_grouped_opcodes
          ["x1\n".toList, "x2\n".toList, "x3\n".toList, "x4\n".toList,
            "c\n".toList]
          ["x1\n".toList, "x2\n".toList, "x3\n".toList, "x4\n".toList,
            "d\n".toList] 3).map (fun g =>
        Difflib.hunkOldLines (Difflib.hunkBody
          ["x1\n".toList, "x2\n".toList, "x3\n".toList, "x4\n".toList,
            "c\n".toList]
          ["x1\n".toList, "x2\n".toList, "x3\n".toList, "x4\n".toList,
            "d\n".toList] g))).flatten ≠
      ["x1\n".toList, "x2\n".toList, "x3\n".toList, "x4\n".toList,
        "c\n".toList]) := by
  decide

/-- C2 (amended): the reconstruction holds per hunk, over the hunk's own
line range rather than the whole file: for every hunk of the rendered
output, its context and delete lines (tag characters removed) are exactly
the slice of the filtered old sequence the hunk header covers, and its
context and insert lines are exactly the covered slice of the filtered new
sequence. -/
theorem claim2_hunk_roundtrip (a b : List Line) (g : List Difflib.Opcode)
    (hg : g ∈ Difflib.get_grouped_opcodes a b 3) :
    Difflib.hunkOldLines (Difflib.hunkBody a b g) =
      sliceL a (g.headD Difflib.dummyOp).i1
        (g.getLastD Difflib.dummyOp).i2 ∧
    Difflib.hunkNewLines (Difflib.hunkBody a b g) =
      sliceL b (g.headD Difflib.dummyOp).j1
        (g.getLastD Difflib.dummyOp).j2 := by
  obtain ⟨hne, hchain⟩ := Difflib.get_grouped_opcodes_ok a b 3 g hg
  exact Difflib.hunkBody_extract g _ _ hchain hne

/-- C2 (witness for `claim2_hunk_roundtrip`). -/
theorem claim2_witness :
    Difflib.hunkOldLines (Difflib.hunkBody
        ["x1\n".toList, "x2\n".toList, "x3\n".toList, "x4\n".toList,
          "c\n".toList]
        ["x1\n".toList, "x2\n".toList, "x3\n".toList, "x4\n".toList,
          "d\n".toList]
        [⟨Difflib.Tag.equal, 1, 4, 1, 4⟩,
          ⟨Difflib.Tag.replace, 4, 5, 4, 5⟩]) =
      sliceL ["x1\n".toList, "x2\n".toList, "x3\n".toList, "x4\n".toList,
        "c\n".toList] 1 5 ∧
    Difflib.hunkNewLines (Difflib.hunkBody
        ["x1\n".toList, "x2\n".toList, "x3\n".toList, "x4\n".toList,
          "c\n".toList]
        ["x1\n".toList, "x2\n".toList, "x3\n".toList, "x4\n".toList,
          "d\n".toList]
        [⟨Difflib.Tag.equal, 1, 4, 1, 4⟩,
          ⟨Difflib.Tag.replace, 4, 5, 4, 5⟩]) =
      sliceL ["x1\n".toList, "x2\n".toList, "x3\n".toList, "x4\n".toList,
        "d\n".toList] 1 5 :=
  claim2_hunk_roundtrip
    ["x1\n".toList, "x2\n".toList, "x3\n".toList, "x4\n".toList,
      "c\n".toList]
    ["x1\n".toList, "x2\n".toList, "x3\n".toList, "x4\n".toList,
      "d\n".toList]
    [⟨Difflib.Tag.equal, 1, 4, 1, 4⟩, ⟨Difflib.Tag.replace, 4, 5, 4, 5⟩]
    (by decide)

section FilterLemmas

open PrettyDiff

lemma truncateLine_of_le {l : Line} (h : l.length ≤ MAX_LINE_LEN) :
    truncateLine l = l := by
  simp [truncateLine, Nat.not_lt.2 h]

lemma getLinesAux_no_strip (inside : Bool) (lines : List Line) :
    getLinesAux false inside lines = lines.map truncateLine := by
  induction lines with
  | nil => rfl
  | cons l rest ih => simp [getLinesAux, ih]

lemma get_lines_no_strip (lines : List Line) :
    get_lines lines false = lines.map truncateLine :=
  getLinesAux_no_strip false lines

lemma get_lines_of_short {lines : List Line}
    (h : ∀ m ∈ lines, m.length ≤ MAX_LINE_LEN) :
    get_lines lines false = lines := by
  rw [get_lines_no_strip]
  exact List.map_congr_left (fun m hm => truncateLine_of_le (h m hm)) |>.trans
    (List.map_id lines)

end FilterLemmas

/-- C3: with metadata stripping enabled, filtering the four input lines
`["  managedFields:", "  - foo", "   bar", "  name: x"]` drops the block
start and both continuation lines (two-space bullet, three-space indent)
and keeps the first non-continuation line, yielding exactly
`["  name: x"]`. -/
theorem claim3_metadata_block :
    PrettyDiff.get_lines
      ["  managedFields:".toList, "  - foo".toList, "   bar".toList,
        "  name: x".toList] true = ["  name: x".toList] := by
  decide

set_option maxRecDepth 40000 in
/-- C4 (counterexample): truncation is not idempotent.  A 300-character
line is truncated to 256 characters plus a 22-character marker, a
278-character result; re-filtering truncates it again with a different
omitted-count, so re-applying the filter changes already-filtered
output. -/
theorem claim4_counterexample :
    PrettyDiff.get_lines
        (PrettyDiff.get_lines [List.replicate 300 'a'] false) false ≠
      PrettyDiff.get_lines [List.replicate 300 'a'] false := by
  decide

/-- C4 (amended): a line no longer than `MAX_LINE_LEN` (256) characters is
left unchanged by the filter, and the filter is idempotent on inputs all
of whose lines are that short; idempotence fails in general because a
truncated line exceeds 256 characters and is re-truncated differently. -/
theorem claim4_truncation (l : Line) (lines : List Line) :
    (l.length ≤ PrettyDiff.MAX_LINE_LEN → PrettyDiff.truncateLine l = l) ∧
    ((∀ m ∈ lines, m.length ≤ PrettyDiff.MAX_LINE_LEN) →
      PrettyDiff.get_lines lines false = lines ∧
      PrettyDiff.get_lines (PrettyDiff.get_lines lines false) false =
        PrettyDiff.get_lines lines false) := by
  refine ⟨fun h => truncateLine_of_le h, fun h => ?_⟩
  rw [get_lines_of_short h, get_lines_of_short h]
  exact ⟨rfl, rfl⟩

/-- C4 (witness for `claim4_truncation`). -/
theorem claim4_witness :
    PrettyDiff.truncateLine "abc".toList = "abc".toList ∧
    PrettyDiff.get_lines ["a".toList, "b".toList] false =
      ["a".toList, "b".toList] :=
  ⟨(claim4_truncation "abc".toList []).1 (by decide),
    ((claim4_truncation [] ["a".toList, "b".toList]).2 (by decide)).1⟩

/-- C10: the length check of the filter counts the line terminator: a line
whose content is exactly 256 characters followed by a newline is truncated
with `1` character reported omitted (the newline); every truncated line
ends in the marker's `)` rather than its terminator, and every line of
length at most 256 is kept verbatim, retaining its terminator. -/
theorem claim10_terminator (content line : Line) :
    (content.length = 256 →
      PrettyDiff.truncateLine (content ++ ['\n']) =
        content ++ "... (1 chars omitted)".toList) ∧
    (256 < line.length →
      (PrettyDiff.truncateLine line).getLast? = some ')') ∧
    (line.length ≤ 256 → PrettyDiff.truncateLine line = line) := by
  refine ⟨fun h => ?_, fun h => ?_, fun h => truncateLine_of_le h⟩
  · have hlen : (content ++ ['\n']).length = 257 := by
      simp [h]
    have h2 : PrettyDiff.truncateLine (content ++ ['\n']) =
        (content ++ ['\n']).take 256 ++ "... (".toList ++
          natLine ((content ++ ['\n']).length - 256) ++
          " chars omitted)".toList := by
      simp only [PrettyDiff.truncateLine, PrettyDiff.MAX_LINE_LEN]
      rw [if_pos (by rw [hlen]; decide)]
    rw [h2, hlen]
    have htake : (content ++ ['\n']).take 256 = content := by
      conv_lhs => rw [show 256 = content.length from h.symm]
      exact List.take_left content ['\n']
    rw [htake, List.append_assoc, List.append_assoc]
    congr 1
  · have h2 : PrettyDiff.truncateLine line =
        line.take 256 ++ "... (".toList ++ natLine (line.length - 256) ++
          " chars omitted)".toList := by
      simp only [PrettyDiff.truncateLine, PrettyDiff.MAX_LINE_LEN]
      rw [if_pos h]
    rw [h2, List.getLast?_append]
    have h3 : " chars omitted)".toList.getLast? = some ')' := by decide
    rw [h3]
    rfl

/-- C5 (counterexample): with colors enabled, the hunk-header line
`@@ -1 +1 @@` is emitted with no color at all: the renderer's blue branch
matches lines starting with `^`, which unified diffs never contain, so the
header falls through to the uncolored default branch. -/
theorem claim5_counterexample :
    (PrettyDiff.diff_files "f".toList ["a\n".toList] ["b\n".toList]
        true).get? 2 = some "@@ -1 +1 @@".toList ∧
    PrettyDiff.OKBLUE ++ "@@ -1 +1 @@".toList ++ PrettyDiff.ENDC ∉
      PrettyDiff.diff_files "f".toList ["a\n".toList] ["b\n".toList] true := by
  decide

/-- C5 (amended): with colors enabled, lines starting with `+` are wrapped
in green and lines starting with `-` in red, while hunk-header lines
(starting with `@`) and context lines (starting with a space) are emitted
with no color; no diff line starts with `^`, the only prefix the blue
branch matches. -/
theorem claim5_colors (l rest : Line) :
    (rstrip l = '@' :: rest →
      PrettyDiff.colorizeLine true l = some (rstrip l)) ∧
    (rstrip l = '+' :: rest →
      PrettyDiff.colorizeLine true l =
        some (PrettyDiff.OKGREEN ++ rstrip l ++ PrettyDiff.ENDC)) ∧
    (rstrip l = '-' :: rest →
      PrettyDiff.colorizeLine true l =
        some (PrettyDiff.FAIL ++ rstrip l ++ PrettyDiff.ENDC)) ∧
    (rstrip l = ' ' :: rest →
      PrettyDiff.colorizeLine true l = some (rstrip l)) := by
  refine ⟨fun h => ?_, fun h => ?_, fun h => ?_, fun h => ?_⟩ <;>
    simp only [PrettyDiff.colorizeLine, h, List.head?_cons] <;>
    simp

/-- C5 (witness for `claim5_colors`). -/
theorem claim5_witness :
    PrettyDiff.colorizeLine true "@@ -1 +1 @@\n".toList =
      some "@@ -1 +1 @@".toList ∧
    PrettyDiff.colorizeLine true "+b\n".toList =
      some (PrettyDiff.OKGREEN ++ "+b".toList ++ PrettyDiff.ENDC) ∧
    PrettyDiff.colorizeLine true "-a\n".toList =
      some (PrettyDiff.FAIL ++ "-a".toList ++ PrettyDiff.ENDC) ∧
    PrettyDiff.colorizeLine true " x\n".toList = some " x".toList := by
  refine ⟨?_, ?_, ?_, ?_⟩
  · have h := (claim5_colors "@@ -1 +1 @@\n".toList "@ -1 +1 @@".toList).1
      (by decide)
    rw [h]; decide
  · have h := (claim5_colors "+b\n".toList "b".toList).2.1 (by decide)
    rw [h]; decide
  · have h := (claim5_colors "-a\n".toList "a".toList).2.2.1 (by decide)
    rw [h]; decide
  · have h := (claim5_colors " x\n".toList "x".toList).2.2.2 (by decide)
    rw [h]; decide

/-- C9 (counterexample): a whitespace-only inserted line does produce an
output line: the diff line `+  \n` strips to `+`, which matches the `+`
branch and is printed (as a bare `+`), so it is not dropped. -/
theorem claim9_counterexample :
    "+".toList ∈
      PrettyDiff.diff_files "f".toList [] ["  \n".toList] false := by
  decide

/-- C9 (amended): every line the renderer prints is non-empty, and a diff
line that becomes the empty string after stripping trailing whitespace —
which happens exactly for context lines with all-whitespace content, since
insert/delete lines keep their `+`/`-` marker — is silently dropped. -/
theorem claim9_dropped_lines (uc : Bool) (l o : Line) :
    (rstrip l = [] → PrettyDiff.colorizeLine uc l = none) ∧
    (PrettyDiff.colorizeLine uc l = some o → o ≠ []) := by
  constructor
  · intro h
    simp [PrettyDiff.colorizeLine, h]
  · intro h
    rcases hr : rstrip l with _ | ⟨c, cs⟩
    · simp [PrettyDiff.colorizeLine, hr] at h
    · simp only [PrettyDiff.colorizeLine, hr, List.head?_cons] at h
      split_ifs at h with h1 h2 h3 h4 <;>
        (cases h
         cases uc <;>
           simp [PrettyDiff.OKGREEN, PrettyDiff.FAIL, PrettyDiff.OKBLUE])

/-- C9 (witness for `claim9_dropped_lines`). -/
theorem claim9_witness :
    PrettyDiff.colorizeLine false "   \n".toList = none ∧
    "+".toList ≠ ([] : Line) :=
  ⟨(claim9_dropped_lines false "   \n".toList []).1 (by decide),
    (claim9_dropped_lines false "+  \n".toList "+".toList).2 (by decide)⟩

/-- C8: a nonexistent root argument — either one — aborts `main` inside
its `walk_path` call, before any diff output is produced: if the old root
does not exist, the first walk raises; if the old root exists and the new
root does not, the second walk raises, still before any pair is diffed.
Either way the raised exception
`Exception('Path %s does not exist', root_path)` carries the missing path
as its argument, and the uncaught exception terminates the process with a
nonzero status. -/
theorem claim8_missing_root (fs : PrettyDiff.FileSystem) (cwd : List Line)
    (old_root new_root : Line) (uc strip : Bool) :
    (fs.pathExists old_root = false →
      PrettyDiff.mainRun fs cwd old_root new_root uc strip =
        Except.error ⟨"Path %s does not exist".toList, old_root⟩) ∧
    (fs.pathExists old_root = true → fs.pathExists new_root = false →
      PrettyDiff.mainRun fs cwd old_root new_root uc strip =
        Except.error ⟨"Path %s does not exist".toList, new_root⟩) := by
  constructor
  · intro h
    have h1 : PrettyDiff.rootNames fs cwd old_root =
        Except.error ⟨"Path %s does not exist".toList, old_root⟩ := by
      simp [PrettyDiff.rootNames, PrettyDiff.walk_path, h, Except.map]
    rw [PrettyDiff.mainRun, h1]
    rfl
  · intro hold hnew
    have h1 : ∃ names, PrettyDiff.rootNames fs cwd old_root =
        Except.ok names := by
      rw [PrettyDiff.rootNames, PrettyDiff.walk_path]
      rw [if_neg (by simp [hold])]
      by_cases hf : fs.isfile old_root = true
      · rw [if_pos hf]
        exact ⟨_, rfl⟩
      · rw [if_neg hf]
        exact ⟨_, rfl⟩
    obtain ⟨names, hnames⟩ := h1
    have h2 : PrettyDiff.rootNames fs cwd new_root =
        Except.error ⟨"Path %s does not exist".toList, new_root⟩ := by
      simp [PrettyDiff.rootNames, PrettyDiff.walk_path, hnew, Except.map]
    rw [PrettyDiff.mainRun, hnames, h2]
    rfl

/-- C8 (witness for `claim8_missing_root`): both directions exercised —
a file system where no path exists (missing old root), and one where
exactly `/ok` exists (old root present, new root missing). -/
theorem claim8_witness :
    PrettyDiff.mainRun
        ⟨fun _ => false, fun _ => false, fun _ => [], fun _ => []⟩ []
        "/x".toList "/y".toList false false =
      Except.error ⟨"Path %s does not exist".toList, "/x".toList⟩ ∧
    PrettyDiff.mainRun
        ⟨fun p => decide (p = "/ok".toList), fun _ => true, fun _ => [],
          fun _ => []⟩ []
        "/ok".toList "/y".toList false false =
      Except.error ⟨"Path %s does not exist".toList, "/y".toList⟩ :=
  ⟨(claim8_missing_root
      ⟨fun _ => false, fun _ => false, fun _ => [], fun _ => []⟩ []
      "/x".toList "/y".toList false false).1 rfl,
    (claim8_missing_root
      ⟨fun p => decide (p = "/ok".toList), fun _ => true, fun _ => [],
        fun _ => []⟩ []
      "/ok".toList "/y".toList false false).2 (by decide) (by decide)⟩

section RelpathLemmas

open PrettyDiff

lemma commonPrefixLen_self (l : List Line) : commonPrefixLen l l = l.length := by
  induction l with
  | nil => rfl
  | cons x xs ih => simp [PrettyDiff.commonPrefixLen, ih]

lemma relpath_self (cwd : List Line) (p : Line) :
    relpath cwd p p = ".".toList := by
  simp [PrettyDiff.relpath, commonPrefixLen_self, List.drop_length]

end RelpathLemmas

/-- C6 (counterexample): for a root that is a single regular file, the
walk returns the root itself and `os.path.relpath(root, root)` is `'.'`,
not the file's base name: the resulting name set is `{'.'}` while the base
name of `/tmp/a.txt` is `a.txt`. -/
theorem claim6_counterexample :
    PrettyDiff.rootNames
        ⟨fun _ => true, fun _ => true, fun _ => [], fun _ => []⟩ []
        "/tmp/a.txt".toList = Except.ok [".".toList] ∧
    (".".toList : Line) ≠ PrettyDiff.pyBasename "/tmp/a.txt".toList := by
  exact ⟨rfl, by decide⟩

/-- C6 (amended): for every root path that is a single regular file, the
tree walk followed by relative-name computation yields the one-element set
containing `'.'` (the relative path of the root to itself), not the file's
base name. -/
theorem claim6_single_file_dot (fs : PrettyDiff.FileSystem)
    (cwd : List Line) (root : Line) (h1 : fs.pathExists root = true)
    (h2 : fs.isfile root = true) :
    PrettyDiff.rootNames fs cwd root = Except.ok [".".toList] := by
  simp [PrettyDiff.rootNames, PrettyDiff.walk_path, h1, h2, Except.map,
    relpath_self]

/-- C6 (witness for `claim6_single_file_dot`). -/
theorem claim6_witness :
    PrettyDiff.rootNames
        ⟨fun _ => true, fun _ => true, fun _ => [], fun _ => []⟩ []
        "/a".toList = Except.ok [".".toList] :=
  claim6_single_file_dot _ _ _ rfl rfl

section ReconcilerLemmas

open PrettyDiff

lemma classifyName_name (o n : Line) (ons nns : List Line) (x : Line) :
    (classifyName o n ons nns x).name = x := by
  rw [classifyName]
  split_ifs <;> rfl

/-- The strict name order on comparison pairs. -/
def pairLt (p q : PrettyDiff.DiffPair) : Prop :=
  String.mk p.name < String.mk q.name

instance : IsAntisymm PrettyDiff.DiffPair pairLt :=
  ⟨fun _ _ h h' => absurd h' (lt_asymm h)⟩

lemma build_map_name_perm (o n : Line) (ons nns union : List Line) :
    ((build_diff_pairs o n ons nns union).map DiffPair.name).Perm union := by
  have h1 : (build_diff_pairs o n ons nns union).Perm
      (union.map (classifyName o n ons nns)) :=
    List.perm_insertionSort pairLe _
  have h2 := h1.map DiffPair.name
  rw [List.map_map] at h2
  have h3 : union.map (fun x => (classifyName o n ons nns x).name) = union := by
    exact (List.map_congr_left
      (fun x _ => classifyName_name o n ons nns x)).trans (List.map_id union)
  rw [Function.comp_def, h3] at h2
  exact h2

lemma build_sorted_strict (o n : Line) (ons nns union : List Line)
    (hu : union.Nodup) :
    (build_diff_pairs o n ons nns union).Sorted pairLt := by
  have hle : (build_diff_pairs o n ons nns union).Sorted pairLe :=
    List.sorted_insertionSort pairLe _
  have hnd : ((build_diff_pairs o n ons nns union).map DiffPair.name).Nodup :=
    ((build_map_name_perm o n ons nns union).nodup_iff).2 hu
  have hne : (build_diff_pairs o n ons nns union).Pairwise
      (fun p q => p.name ≠ q.name) := List.pairwise_map.1 hnd
  refine (hle.and hne).imp ?_
  rintro p q ⟨h1, h2⟩
  exact lt_of_le_of_ne h1 (fun hmk => h2 (by injection hmk))

end ReconcilerLemmas

/-- C7: for any two name sets, the reconciler produces exactly one
comparison pair per name of their union, the output is sorted strictly
increasingly by name in code-point-lexicographic order (`String` order
compares the character lists by code point), and the result does not
depend on the arbitrary order in which Python's set union is iterated, so
the per-file sections are emitted in a deterministic order. -/
theorem claim7_reconciler_sorted (old_root new_root : Line)
    (old_names new_names union union' : List Line)
    (hu : union.Nodup)
    (hm : ∀ x, x ∈ union ↔ (x ∈ old_names ∨ x ∈ new_names))
    (hu' : union'.Nodup)
    (hm' : ∀ x, x ∈ union' ↔ (x ∈ old_names ∨ x ∈ new_names)) :
    ((PrettyDiff.build_diff_pairs old_root new_root old_names new_names
        union).map PrettyDiff.DiffPair.name).Perm union ∧
    (PrettyDiff.build_diff_pairs old_root new_root old_names new_names
        union).Sorted pairLt ∧
    PrettyDiff.build_diff_pairs old_root new_root old_names new_names
        union =
      PrettyDiff.build_diff_pairs old_root new_root old_names new_names
        union' := by
  refine ⟨build_map_name_perm _ _ _ _ _, build_sorted_strict _ _ _ _ _ hu, ?_⟩
  have huu : union.Perm union' :=
    (List.perm_ext_iff_of_nodup hu hu').2 (fun x => (hm x).trans (hm' x).symm)
  have hp : (PrettyDiff.build_diff_pairs old_root new_root old_names
      new_names union).Perm
      (PrettyDiff.build_diff_pairs old_root new_root old_names new_names
        union') :=
    (List.perm_insertionSort PrettyDiff.pairLe _).trans
      ((huu.map _).trans (List.perm_insertionSort PrettyDiff.pairLe _).symm)
  exact List.eq_of_perm_of_sorted hp
    (build_sorted_strict _ _ _ _ _ hu) (build_sorted_strict _ _ _ _ _ hu')

/-- C7 (witness for `claim7_reconciler_sorted`). -/
theorem claim7_witness :
    ((PrettyDiff.build_diff_pairs "o".toList "n".toList ["b".toList]
        ["a".toList] ["b".toList, "a".toList]).map
        PrettyDiff.DiffPair.name).Perm ["b".toList, "a".toList] ∧
    (PrettyDiff.build_diff_pairs "o".toList "n".toList ["b".toList]
        ["a".toList] ["b".toList, "a".toList]).Sorted pairLt ∧
    PrettyDiff.build_diff_pairs "o".toList "n".toList ["b".toList]
        ["a".toList] ["b".toList, "a".toList] =
      PrettyDiff.build_diff_pairs "o".toList "n".toList ["b".toList]
        ["a".toList] ["a".toList, "b".toList] :=
  claim7_reconciler_sorted "o".toList "n".toList ["b".toList] ["a".toList]
    ["b".toList, "a".toList] ["a".toList, "b".toList]
    (by decide) (by intro x; simp)
    (by decide) (by intro x; simp; tauto)

/-- C10 (witness for `claim10_terminator`). -/
theorem claim10_witness :
    PrettyDiff.truncateLine (List.replicate 256 'b' ++ ['\n']) =
      List.replicate 256 'b' ++ "... (1 chars omitted)".toList ∧
    (PrettyDiff.truncateLine (List.replicate 257 'c')).getLast? =
      some ')' ∧
    PrettyDiff.truncateLine ['a'] = ['a'] :=
  ⟨(claim10_terminator (List.replicate 256 'b') []).1
      (by rw [List.length_replicate]),
    (claim10_terminator [] (List.replicate 257 'c')).2.1
      (by rw [List.length_replicate]; decide),
    (claim10_terminator [] ['a']).2.2 (by decide)⟩
